import Mathlib

/-!
Verification development for the extension-based file sorter
(`src/main.py`, class `Folder`).

The file system is embedded shallowly: a directory is a tree holding the
names of its plain files and its named subdirectories.  All state lives in
this tree, mirroring the source, where state lives entirely in the real
file system.  Machine-level concerns (permissions, devices) are out of
scope; the error kinds that the control flow of `main.py` can actually
produce (`NotADirectoryError`, `IsADirectoryError`, `FileNotFoundError`)
are modelled explicitly, since `Path.rename` and `Path.mkdir` raise them
and `sort_files_by_extensions` lets them propagate.

The directory listing consumed by the file loop is modelled as a snapshot
of the file names taken when the loop starts, which is the behaviour the
spec prescribes; the Python generator's behaviour when entries are renamed
mid-iteration is left unspecified by the OS (see the development notes on
the corresponding claim).
-/

/-- Error kinds observable from the control flow of `main.py`. -/
inductive Err : Type where
  | notADirectory : Err
  | isADirectory : Err
  | sourceMissing : Err
  | pathNotFound : Err
  | depthExceeded : Err
deriving DecidableEq, Repr

/-- Suffix of a character list after its last `'.'`, if any dot occurs. -/
def afterLastDot : List Char → Option (List Char)
  | [] => none
  | c :: cs =>
    match afterLastDot cs with
    | some r => some r
    | none => if c = '.' then some cs else none

/-- Model of Python `name.rsplit(".", 1)[-1]`: the part after the last
dot, or the whole list when no dot occurs. -/
def rsplitLast (l : List Char) : List Char :=
  match afterLastDot l with
  | some r => r
  | none => l

/-- Extension computation from `main.py` line 76:
`path.name.rsplit(".", 1)[-1] if "." in path.name else ""`. -/
def classify (name : String) : String :=
  if name.data.contains '.' then String.mk (rsplitLast name.data) else ""

/-- Association-list lookup used to model the `EXTENSIONS` mapping of the
`config` module. -/
def lookupMap : List (String × String) → String → Option String
  | [], _ => none
  | (k, v) :: rest, e => if k = e then some v else lookupMap rest e

/-- Modelled from the spec: the `config` module imported by `main.py`
(`from config import *`) is not part of `src/`.  Per spec section 3 it
supplies `ExtensionMap` — a mapping from extension (lowercase, no leading
dot) to category name — together with the derived set of category names
(`SUBFOLDER_NAMES`) and the reserved log-directory name (`LOGS_FOLDER`).
-/
structure Config : Type where
  EXTENSIONS : List (String × String)
  logsName : String

/-- Modelled from the spec: `get_subfolder_name_by_extension` from the
missing `config` module returns the category name that `ExtensionMap`
associates to an extension. -/
def get_subfolder_name_by_extension (cfg : Config) (ext : String) : Option String :=
  lookupMap cfg.EXTENSIONS ext

/-- Modelled from the spec: `SUBFOLDER_NAMES` is the derived set of
category names that `ExtensionMap` produces (spec sections 3 and 6). -/
def SUBFOLDER_NAMES (cfg : Config) : List String :=
  cfg.EXTENSIONS.map Prod.snd

/-- Well-formedness of the configuration: extensions and category names
are nonempty path components.  On the real file system an empty name
cannot name an entry, and the code skips empty extensions. -/
def Config.wf (cfg : Config) : Bool :=
  cfg.EXTENSIONS.all (fun p => !(p.1 = "") && !(p.2 = ""))

/-- A directory: its plain file names and its named subdirectories.
This is the state one `Folder` of `main.py` operates on. -/
inductive Dir : Type where
  | mk (files : List String) (subdirs : List (String × Dir)) : Dir

/-- The plain file names directly inside the directory
(`Folder._get_file_paths`). -/
def Dir.files : Dir → List String
  | .mk fs _ => fs

/-- The named subdirectories directly inside the directory
(`Folder._get_subfolder_paths`). -/
def Dir.subdirs : Dir → List (String × Dir)
  | .mk _ subs => subs

/-- Names of the subdirectory entries of a listing. -/
def dirNames (subs : List (String × Dir)) : List String :=
  subs.map Prod.fst

/-- Find the subdirectory with the given name, if present. -/
def findDir : List (String × Dir) → String → Option Dir
  | [], _ => none
  | (n, d) :: rest, cat => if n = cat then some d else findDir rest cat

/-- Add a file name to a directory; if a file of that name is already
present the move replaces it, so the set of names is unchanged
(`Path.rename` overwrite semantics). -/
def Dir.addFile : Dir → String → Dir
  | .mk fs subs, name => .mk (if name ∈ fs then fs else fs ++ [name]) subs

/-- Deposit a moved file into the subdirectory entry with the given name
(the target built at `main.py` line 84). -/
def moveInto : List (String × Dir) → String → String → List (String × Dir)
  | [], _, _ => []
  | (n, d) :: rest, cat, name =>
    if n = cat then (n, d.addFile name) :: rest
    else (n, d) :: moveInto rest cat name

/-- `Folder._create_subfolder` (`main.py` lines 50-59) acting on the
directory contents `(fs, subs)`: when no entry named `cat` exists,
`mkdir` adds an empty directory; when any entry of that name exists —
a directory, but also a plain file, since `Path.exists` does not
distinguish — nothing happens. -/
def create_subfolder (fs : List String) (subs : List (String × Dir))
    (cat : String) : List (String × Dir) :=
  if cat ∈ fs ∨ cat ∈ dirNames subs then subs
  else subs ++ [(cat, Dir.mk [] [])]

/-- No-duplicate check on a list of names. -/
def nodupNames : List String → Bool
  | [] => true
  | x :: rest => !(rest.contains x) && nodupNames rest

mutual
/-- Well-formedness of a directory tree: entry names are unique at each
level and no name is both a file and a subdirectory, as on a real file
system. -/
def Dir.wf : Dir → Bool
  | .mk fs subs =>
    nodupNames fs && nodupNames (dirNames subs) &&
    (dirNames subs).all (fun n => !(fs.contains n)) && wfList subs

/-- Well-formedness of every subdirectory of a listing. -/
def wfList : List (String × Dir) → Bool
  | [] => true
  | (_, d) :: rest => d.wf && wfList rest
end

mutual
/-- Depth of a directory tree; used as the recursion bound of the
sorter's tree walk. -/
def Dir.depth : Dir → Nat
  | .mk _ subs => 1 + depthList subs

/-- Maximal depth of the subdirectories of a listing. -/
def depthList : List (String × Dir) → Nat
  | [] => 0
  | (_, d) :: rest => max d.depth (depthList rest)
end

/-- The file loop of `Folder.sort_files_by_extensions` (`main.py` lines
73-85), folded over the snapshot of the directory's file names.  State
`(fs, subs)` is the directory's current contents.  For each name: compute
the extension (line 76); if it is nonempty and a key of `EXTENSIONS`
(line 78), run `_create_subfolder` (lines 50-59: `mkdir` only when no
entry of that name exists), then `path.rename(new_path)` (line 85), which
fails with `NotADirectoryError` when the category name denotes a plain
file, fails with `IsADirectoryError` when the destination name is an
existing directory inside the category folder, and otherwise moves the
file, silently replacing a destination file of the same name.  An error
propagates at once, abandoning the rest of the loop with the state
reached so far. -/
def processFiles (cfg : Config) :
    List String → List String → List (String × Dir) →
    List String × List (String × Dir) × Option Err
  | [], fs, subs => (fs, subs, none)
  | name :: rest, fs, subs =>
    let ext := classify name
    if ext ≠ "" then
      match lookupMap cfg.EXTENSIONS ext with
      | some cat =>
        let subs1 := create_subfolder fs subs cat
        match findDir subs1 cat with
        | none => (fs, subs1, some Err.notADirectory)
        | some target =>
          if name ∈ dirNames target.subdirs then (fs, subs1, some Err.isADirectory)
          else if name ∈ fs then
            processFiles cfg rest (fs.erase name) (moveInto subs1 cat name)
          else (fs, subs1, some Err.sourceMissing)
      | none => processFiles cfg rest fs subs
    else processFiles cfg rest fs subs

/-- The subdirectory loop of `Folder.sort_files_by_extensions` (`main.py`
lines 88-104), with `f` the recursive sort applied to each subdirectory
that is neither named after a category (`SUBFOLDER_NAMES`) nor after the
log directory.  An error from a recursive call propagates at once,
leaving the remaining entries untouched. -/
def processSubfolders (cfg : Config) (f : Dir → Dir × Option Err) :
    List (String × Dir) → List (String × Dir) × Option Err
  | [] => ([], none)
  | (n, sub) :: rest =>
    if n ∈ SUBFOLDER_NAMES cfg ∨ n = cfg.logsName then
      let r := processSubfolders cfg f rest
      ((n, sub) :: r.1, r.2)
    else
      match f sub with
      | (sub', some e) => ((n, sub') :: rest, some e)
      | (sub', none) =>
        let r := processSubfolders cfg f rest
        ((n, sub') :: r.1, r.2)

/-- `Folder.sort_files_by_extensions` (`main.py` lines 61-104): move the
files of the directory into category subfolders, then, when `recursive`
is set, descend into the surviving plain subdirectories.  The tree walk
is bounded by `fuel`; `sortDirectory` below supplies the tree depth,
which the development proves sufficient, so the `depthExceeded` marker is
never reached. -/
def sort_files_by_extensions (cfg : Config) : Nat → Bool → Dir → Dir × Option Err
  | 0, _, d => (d, some Err.depthExceeded)
  | fuel + 1, recursive, d =>
    match processFiles cfg d.files d.files d.subdirs with
    | (fs', subs', some e) => (Dir.mk fs' subs', some e)
    | (fs', subs', none) =>
      if recursive then
        let r := processSubfolders cfg
          (fun sub => sort_files_by_extensions cfg fuel true sub) subs'
        (Dir.mk fs' r.1, r.2)
      else (Dir.mk fs' subs', none)

/-- One sorting pass over a directory: the spec's
`sortDirectory(dir, recursive)`. -/
def sortDirectory (cfg : Config) (recursive : Bool) (d : Dir) : Dir × Option Err :=
  sort_files_by_extensions cfg d.depth recursive d

/-- The entry point `main` applied to the configured root path: when the
root directory does not exist, `os.scandir` (evaluated eagerly as the
outermost iterable of the generator at `main.py` lines 46-48) raises
`FileNotFoundError` at line 73, before the loop body runs, so no file is
moved and no folder is created. -/
def sortRoot (cfg : Config) (recursive : Bool) (root : Option Dir) :
    Option Dir × Option Err :=
  match root with
  | none => (none, some Err.pathNotFound)
  | some d =>
    let r := sortDirectory cfg recursive d
    (some r.1, r.2)

/-! ### Basic lemmas about names, listings and the small operations -/

theorem contains_iff {l : List String} {x : String} :
    l.contains x = true ↔ x ∈ l := by
  simp [List.contains, List.elem_iff]

theorem nodupNames_iff {l : List String} :
    nodupNames l = true ↔ l.Nodup := by
  induction l with
  | nil => simp [nodupNames]
  | cons x rest ih =>
    simp [nodupNames, List.nodup_cons, ih, contains_iff, And.comm]

theorem wf_mk_iff {fs : List String} {subs : List (String × Dir)} :
    Dir.wf (.mk fs subs) = true ↔
      fs.Nodup ∧ (dirNames subs).Nodup ∧
      (∀ n ∈ dirNames subs, n ∉ fs) ∧ wfList subs = true := by
  simp only [Dir.wf, Bool.and_eq_true, nodupNames_iff, List.all_eq_true]
  constructor
  · rintro ⟨⟨⟨h1, h2⟩, h3⟩, h4⟩
    refine ⟨h1, h2, ?_, h4⟩
    intro n hn
    have := h3 n hn
    simpa [contains_iff] using this
  · rintro ⟨h1, h2, h3, h4⟩
    refine ⟨⟨⟨h1, h2⟩, ?_⟩, h4⟩
    intro n hn
    simpa [contains_iff] using h3 n hn

theorem wfList_mem {subs : List (String × Dir)} {n : String} {d : Dir}
    (hwf : wfList subs = true) (hmem : (n, d) ∈ subs) : d.wf = true := by
  induction subs with
  | nil => cases hmem
  | cons p rest ih =>
    obtain ⟨m, d0⟩ := p
    simp only [wfList, Bool.and_eq_true] at hwf
    rcases List.mem_cons.mp hmem with h | h
    · cases h; exact hwf.1
    · exact ih hwf.2 h

theorem wfList_cons {p : String × Dir} {rest : List (String × Dir)} :
    wfList (p :: rest) = true ↔ p.2.wf = true ∧ wfList rest = true := by
  obtain ⟨n, d⟩ := p
  simp [wfList]

theorem wfList_append {a b : List (String × Dir)} :
    wfList (a ++ b) = true ↔ wfList a = true ∧ wfList b = true := by
  induction a with
  | nil => simp [wfList]
  | cons p rest ih =>
    obtain ⟨n, d⟩ := p
    simp [wfList, ih, and_assoc]

theorem findDir_mem {subs : List (String × Dir)} {n : String} {d : Dir}
    (h : findDir subs n = some d) : (n, d) ∈ subs := by
  induction subs with
  | nil => simp [findDir] at h
  | cons p rest ih =>
    obtain ⟨m, d0⟩ := p
    by_cases hm : m = n
    · subst hm
      simp [findDir] at h
      subst h; exact List.mem_cons_self _ _
    · simp [findDir, hm] at h
      exact List.mem_cons_of_mem _ (ih h)

theorem findDir_eq_some_of_mem {subs : List (String × Dir)} {n : String} {d : Dir}
    (hnd : (dirNames subs).Nodup) (hmem : (n, d) ∈ subs) :
    findDir subs n = some d := by
  induction subs with
  | nil => cases hmem
  | cons p rest ih =>
    obtain ⟨m, d0⟩ := p
    simp only [dirNames, List.map_cons, List.nodup_cons] at hnd
    rcases List.mem_cons.mp hmem with h | h
    · cases h; simp [findDir]
    · have hne : m ≠ n := by
        intro he; subst he
        exact hnd.1 (by simp [dirNames]; exact ⟨d, h⟩)
      simp [findDir, hne]
      exact ih hnd.2 h

theorem findDir_isSome_iff {subs : List (String × Dir)} {n : String} :
    (findDir subs n).isSome = true ↔ n ∈ dirNames subs := by
  induction subs with
  | nil => simp [findDir, dirNames]
  | cons p rest ih =>
    obtain ⟨m, d0⟩ := p
    by_cases hm : m = n
    · subst hm; simp [findDir, dirNames]
    · simp only [findDir, if_neg hm, dirNames, List.map_cons, List.mem_cons]
      simp only [dirNames] at ih
      rw [ih]
      constructor
      · exact fun h => Or.inr h
      · rintro (h | h)
        · exact absurd h.symm hm
        · exact h

theorem findDir_append {a b : List (String × Dir)} {n : String} :
    findDir (a ++ b) n =
      match findDir a n with
      | some d => some d
      | none => findDir b n := by
  induction a with
  | nil => simp [findDir]
  | cons p rest ih =>
    obtain ⟨m, d0⟩ := p
    by_cases hm : m = n
    · subst hm; simp [findDir]
    · simp [findDir, hm, ih]

theorem addFile_files {d : Dir} {name x : String} :
    x ∈ (d.addFile name).files ↔ x = name ∨ x ∈ d.files := by
  obtain ⟨fs, subs⟩ := d
  by_cases h : name ∈ fs
  · simp [Dir.addFile, Dir.files, h]
    intro he; subst he; exact h
  · simp [Dir.addFile, Dir.files, h, List.mem_append, or_comm]

theorem addFile_subdirs {d : Dir} {name : String} :
    (d.addFile name).subdirs = d.subdirs := by
  obtain ⟨fs, subs⟩ := d
  simp [Dir.addFile, Dir.subdirs]

theorem addFile_of_mem {d : Dir} {name : String} (h : name ∈ d.files) :
    d.addFile name = d := by
  obtain ⟨fs, subs⟩ := d
  simp [Dir.files] at h
  simp [Dir.addFile, h]

theorem addFile_wf {d : Dir} {name : String} (hwf : d.wf = true)
    (hnd : name ∉ dirNames d.subdirs) : (d.addFile name).wf = true := by
  obtain ⟨fs, subs⟩ := d
  simp only [Dir.subdirs] at hnd
  rcases wf_mk_iff.mp hwf with ⟨h1, h2, h3, h4⟩
  by_cases h : name ∈ fs
  · simp [Dir.addFile, h, hwf]
  · simp only [Dir.addFile]
    rw [if_neg h]
    refine wf_mk_iff.mpr ⟨?_, h2, ?_, h4⟩
    · simp [List.nodup_append, h1, List.Disjoint]
      intro a ha he; subst he; exact h ha
    · intro n hn
      simp only [List.mem_append, List.mem_singleton]
      rintro (hf | he)
      · exact h3 n hn hf
      · subst he; exact hnd hn

theorem lookup_mem_values {m : List (String × String)} {e v : String}
    (h : lookupMap m e = some v) : v ∈ m.map Prod.snd := by
  induction m with
  | nil => simp [lookupMap] at h
  | cons p rest ih =>
    obtain ⟨k, w⟩ := p
    by_cases hk : k = e
    · subst hk; simp [lookupMap] at h; subst h; simp
    · simp [lookupMap, hk] at h
      simp [ih h]

theorem moveInto_dirNames {subs : List (String × Dir)} {cat name : String} :
    dirNames (moveInto subs cat name) = dirNames subs := by
  induction subs with
  | nil => simp [moveInto]
  | cons p rest ih =>
    obtain ⟨m, d0⟩ := p
    by_cases hm : m = cat
    · subst hm; simp [moveInto, dirNames]
    · simp [moveInto, hm, dirNames] at ih ⊢
      exact ih

theorem findDir_moveInto {subs : List (String × Dir)} {cat name c : String} :
    findDir (moveInto subs cat name) c =
      if c = cat then (findDir subs cat).map (fun d => d.addFile name)
      else findDir subs c := by
  induction subs with
  | nil => by_cases h : c = cat <;> simp [moveInto, findDir, h]
  | cons p rest ih =>
    obtain ⟨m, d0⟩ := p
    by_cases hm : m = cat
    · subst hm
      by_cases hc : c = m
      · subst hc
        simp [moveInto, findDir]
      · have hmc : ¬ m = c := fun he => hc he.symm
        simp [moveInto, findDir, hc, hmc]
    · by_cases hc : c = cat
      · subst hc
        have hmc : ¬ m = c := hm
        simp [moveInto, findDir, hm, hmc, ih]
      · by_cases hmc : m = c
        · subst hmc
          simp [moveInto, findDir, hm, hc]
        · simp [moveInto, findDir, hm, hc, hmc, ih]

theorem moveInto_wfList {subs : List (String × Dir)} {cat name : String} {t : Dir}
    (hwf : wfList subs = true) (hfind : findDir subs cat = some t)
    (ht : (t.addFile name).wf = true) :
    wfList (moveInto subs cat name) = true := by
  induction subs with
  | nil => simp [findDir] at hfind
  | cons p rest ih =>
    obtain ⟨m, d0⟩ := p
    rcases wfList_cons.mp hwf with ⟨hd0, hrest⟩
    by_cases hm : m = cat
    · subst hm
      simp [findDir] at hfind
      subst hfind
      simp [moveInto]
      exact wfList_cons.mpr ⟨ht, hrest⟩
    · simp [findDir, hm] at hfind
      simp [moveInto, hm]
      exact wfList_cons.mpr ⟨hd0, ih hrest hfind⟩

theorem depthList_le_of_mem {subs : List (String × Dir)} {n : String} {d : Dir}
    (h : (n, d) ∈ subs) : d.depth ≤ depthList subs := by
  induction subs with
  | nil => cases h
  | cons p rest ih =>
    obtain ⟨m, d0⟩ := p
    rcases List.mem_cons.mp h with he | hm
    · cases he
      simp only [depthList]
      exact le_max_left _ _
    · simp only [depthList]
      exact le_trans (ih hm) (le_max_right _ _)

theorem depth_mk {fs : List String} {subs : List (String × Dir)} :
    Dir.depth (.mk fs subs) = 1 + depthList subs := by
  simp [Dir.depth]

theorem depth_pos (d : Dir) : 1 ≤ d.depth := by
  obtain ⟨fs, subs⟩ := d
  simp [depth_mk]

/-! ### Lemmas about `create_subfolder` -/

theorem create_findDir_other {fs : List String} {subs : List (String × Dir)}
    {cat c : String} (h : c ≠ cat) :
    findDir (create_subfolder fs subs cat) c = findDir subs c := by
  unfold create_subfolder
  split
  · rfl
  · rw [findDir_append]
    cases hf : findDir subs c
    · have hcc : ¬ cat = c := fun he => h he.symm
      simp [findDir, hcc]
    · rfl

theorem create_findDir_mono {fs : List String} {subs : List (String × Dir)}
    {cat c : String} {s : Dir} (h : findDir subs c = some s) :
    findDir (create_subfolder fs subs cat) c = some s := by
  unfold create_subfolder
  split
  · exact h
  · rw [findDir_append, h]

theorem create_findDir_from {fs : List String} {subs : List (String × Dir)}
    {cat c : String} {s : Dir}
    (h : findDir (create_subfolder fs subs cat) c = some s) :
    findDir subs c = some s ∨ (c = cat ∧ s = Dir.mk [] []) := by
  unfold create_subfolder at h
  split at h
  · exact Or.inl h
  · rw [findDir_append] at h
    cases hf : findDir subs c with
    | some d => rw [hf] at h; exact Or.inl h
    | none =>
      rw [hf] at h
      simp only [findDir] at h
      by_cases hc : cat = c
      · subst hc
        simp at h
        exact Or.inr ⟨rfl, h.symm⟩
      · simp [hc] at h

theorem create_dirNames_subset {fs : List String} {subs : List (String × Dir)}
    {cat : String} : dirNames subs ⊆ dirNames (create_subfolder fs subs cat) := by
  unfold create_subfolder
  split
  · exact fun x h => h
  · intro x h
    simp only [dirNames] at h ⊢
    rw [List.map_append, List.mem_append]
    exact Or.inl h

theorem create_wf {fs : List String} {subs : List (String × Dir)} {cat : String}
    (hwf : Dir.wf (.mk fs subs) = true) :
    Dir.wf (.mk fs (create_subfolder fs subs cat)) = true := by
  rcases wf_mk_iff.mp hwf with ⟨h1, h2, h3, h4⟩
  unfold create_subfolder
  split
  · exact hwf
  · rename_i hnot
    rw [not_or] at hnot
    refine wf_mk_iff.mpr ⟨h1, ?_, ?_, ?_⟩
    · simp only [dirNames, List.map_append, List.map_cons, List.map_nil]
      rw [List.nodup_append]
      refine ⟨h2, by simp, ?_⟩
      intro x hx
      simp only [List.mem_singleton]
      intro he; subst he
      exact hnot.2 hx
    · intro n hn
      simp only [dirNames, List.map_append, List.map_cons, List.map_nil,
        List.mem_append, List.mem_singleton] at hn
      rcases hn with hn | hn
      · exact h3 n hn
      · subst hn; exact hnot.1
    · exact wfList_append.mpr ⟨h4, wfList_cons.mpr ⟨rfl, rfl⟩⟩

/-! ### Step lemmas for the file loop -/

theorem processFiles_nil {cfg : Config} {fs : List String}
    {subs : List (String × Dir)} :
    processFiles cfg [] fs subs = (fs, subs, none) := by
  simp [processFiles]

theorem processFiles_cons_bad {cfg : Config} {name : String} {rest : List String}
    {fs : List String} {subs : List (String × Dir)}
    (h : classify name = "" ∨ lookupMap cfg.EXTENSIONS (classify name) = none) :
    processFiles cfg (name :: rest) fs subs = processFiles cfg rest fs subs := by
  rcases h with h | h
  · simp [processFiles, h]
  · by_cases he : classify name = ""
    · simp [processFiles, he]
    · simp [processFiles, he, h]

theorem processFiles_cons_good {cfg : Config} {name cat : String}
    {rest : List String} {fs : List String} {subs : List (String × Dir)}
    (hext : classify name ≠ "")
    (hcat : lookupMap cfg.EXTENSIONS (classify name) = some cat) :
    processFiles cfg (name :: rest) fs subs =
      match findDir (create_subfolder fs subs cat) cat with
      | none => (fs, create_subfolder fs subs cat, some Err.notADirectory)
      | some target =>
        if name ∈ dirNames target.subdirs then
          (fs, create_subfolder fs subs cat, some Err.isADirectory)
        else if name ∈ fs then
          processFiles cfg rest (fs.erase name) (moveInto (create_subfolder fs subs cat) cat name)
        else (fs, create_subfolder fs subs cat, some Err.sourceMissing) := by
  simp [processFiles, hext, hcat]

/-- Case analysis of one step of the file loop: the head of the snapshot
is skipped, moved, or aborts the loop with an error. -/
theorem processFiles_cons_inv {cfg : Config} {name : String} {rest : List String}
    {fs : List String} {subs : List (String × Dir)}
    {r : List String × List (String × Dir) × Option Err}
    (h : processFiles cfg (name :: rest) fs subs = r) :
    ((classify name = "" ∨ lookupMap cfg.EXTENSIONS (classify name) = none) ∧
      processFiles cfg rest fs subs = r) ∨
    (∃ cat target,
      classify name ≠ "" ∧ lookupMap cfg.EXTENSIONS (classify name) = some cat ∧
      findDir (create_subfolder fs subs cat) cat = some target ∧
      name ∉ dirNames target.subdirs ∧ name ∈ fs ∧
      processFiles cfg rest (fs.erase name)
        (moveInto (create_subfolder fs subs cat) cat name) = r) ∨
    (∃ cat e',
      classify name ≠ "" ∧ lookupMap cfg.EXTENSIONS (classify name) = some cat ∧
      r = (fs, create_subfolder fs subs cat, some e') ∧
      (e' = Err.notADirectory ∨ e' = Err.isADirectory ∨ e' = Err.sourceMissing)) := by
  by_cases he : classify name = ""
  · exact Or.inl ⟨Or.inl he, by rwa [processFiles_cons_bad (Or.inl he)] at h⟩
  · cases hl : lookupMap cfg.EXTENSIONS (classify name) with
    | none => exact Or.inl ⟨Or.inr rfl, by rwa [processFiles_cons_bad (Or.inr hl)] at h⟩
    | some cat =>
      rw [processFiles_cons_good he hl] at h
      cases hfind : findDir (create_subfolder fs subs cat) cat with
      | none =>
        simp only [hfind] at h
        exact Or.inr (Or.inr ⟨cat, Err.notADirectory, he, rfl, h.symm, Or.inl rfl⟩)
      | some target =>
        simp only [hfind] at h
        by_cases hdir : name ∈ dirNames target.subdirs
        · rw [if_pos hdir] at h
          exact Or.inr (Or.inr ⟨cat, Err.isADirectory, he, rfl, h.symm,
            Or.inr (Or.inl rfl)⟩)
        · rw [if_neg hdir] at h
          by_cases hsrc : name ∈ fs
          · rw [if_pos hsrc] at h
            exact Or.inr (Or.inl ⟨cat, target, he, rfl, hfind, hdir, hsrc, h⟩)
          · rw [if_neg hsrc] at h
            exact Or.inr (Or.inr ⟨cat, Err.sourceMissing, he, rfl, h.symm,
              Or.inr (Or.inr rfl)⟩)

/-- The file loop never adds a file to the directory itself: the final
top-level file list is a sublist of the initial one. -/
theorem processFiles_files_subset {cfg : Config} {snap : List String} :
    ∀ {fs : List String} {subs : List (String × Dir)}
      {fs' : List String} {subs' : List (String × Dir)} {e : Option Err},
      processFiles cfg snap fs subs = (fs', subs', e) → fs' ⊆ fs := by
  induction snap with
  | nil =>
    intro fs subs fs' subs' e h
    rw [processFiles_nil] at h
    injection h with h1 h2
    subst h1
    exact fun x hx => hx
  | cons name rest ih =>
    intro fs subs fs' subs' e h
    rcases processFiles_cons_inv h with ⟨hbad, hrec⟩ |
      ⟨cat, target, hext, hcat, hfind, hdir, hsrc, hrec⟩ |
      ⟨cat, e', hext, hcat, req, hkind⟩
    · exact ih hrec
    · exact fun x hx => List.erase_subset _ _ (ih hrec hx)
    · injection req with h1 h2
      subst h1
      exact fun x hx => hx

/-- A file whose extension is empty or unknown is never removed from the
directory by the file loop, error or not. -/
theorem processFiles_bad_stays {cfg : Config} {snap : List String} :
    ∀ {fs : List String} {subs : List (String × Dir)}
      {fs' : List String} {subs' : List (String × Dir)} {e : Option Err} {x : String},
      x ∈ fs →
      (classify x = "" ∨ lookupMap cfg.EXTENSIONS (classify x) = none) →
      processFiles cfg snap fs subs = (fs', subs', e) → x ∈ fs' := by
  induction snap with
  | nil =>
    intro fs subs fs' subs' e x hx hbad h
    rw [processFiles_nil] at h
    injection h with h1 h2
    subst h1
    exact hx
  | cons name rest ih =>
    intro fs subs fs' subs' e x hx hbad h
    rcases processFiles_cons_inv h with ⟨hb, hrec⟩ |
      ⟨cat, target, hext, hcat, hfind, hdir, hsrc, hrec⟩ |
      ⟨cat, e', hext, hcat, req, hkind⟩
    · exact ih hx hbad hrec
    · have hne : x ≠ name := by
        intro heq
        subst heq
        rcases hbad with hb' | hb'
        · exact hext hb'
        · rw [hb'] at hcat; cases hcat
      exact ih ((List.mem_erase_of_ne hne).mpr hx) hbad hrec
    · injection req with h1 h2
      subst h1
      exact hx

/-- A file not listed in the snapshot is never removed from the
directory by the file loop. -/
theorem processFiles_notin_snap_stays {cfg : Config} {snap : List String} :
    ∀ {fs : List String} {subs : List (String × Dir)}
      {fs' : List String} {subs' : List (String × Dir)} {e : Option Err} {x : String},
      x ∈ fs → x ∉ snap →
      processFiles cfg snap fs subs = (fs', subs', e) → x ∈ fs' := by
  induction snap with
  | nil =>
    intro fs subs fs' subs' e x hx hns h
    rw [processFiles_nil] at h
    injection h with h1 h2
    subst h1
    exact hx
  | cons name rest ih =>
    intro fs subs fs' subs' e x hx hns h
    have hne : x ≠ name := fun heq => hns (heq ▸ List.mem_cons_self _ _)
    have hns' : x ∉ rest := fun hr => hns (List.mem_cons_of_mem _ hr)
    rcases processFiles_cons_inv h with ⟨hb, hrec⟩ |
      ⟨cat, target, hext, hcat, hfind, hdir, hsrc, hrec⟩ |
      ⟨cat, e', hext, hcat, req, hkind⟩
    · exact ih hx hns' hrec
    · exact ih ((List.mem_erase_of_ne hne).mpr hx) hns' hrec
    · injection req with h1 h2
      subst h1
      exact hx

/-- When every name of the snapshot has an empty or unknown extension,
the file loop does nothing and succeeds. -/
theorem processFiles_noop {cfg : Config} {snap : List String} :
    ∀ {fs : List String} {subs : List (String × Dir)},
      (∀ x ∈ snap,
        classify x = "" ∨ lookupMap cfg.EXTENSIONS (classify x) = none) →
      processFiles cfg snap fs subs = (fs, subs, none) := by
  induction snap with
  | nil => intro fs subs _; exact processFiles_nil
  | cons name rest ih =>
    intro fs subs hall
    rw [processFiles_cons_bad (hall name (List.mem_cons_self _ _))]
    exact ih fun x hx => hall x (List.mem_cons_of_mem _ hx)

/-- The file loop only produces the three rename/mkdir errors. -/
theorem processFiles_err_kind {cfg : Config} {snap : List String} :
    ∀ {fs : List String} {subs : List (String × Dir)}
      {fs' : List String} {subs' : List (String × Dir)} {e : Option Err},
      processFiles cfg snap fs subs = (fs', subs', e) →
      e ≠ some Err.depthExceeded ∧ e ≠ some Err.pathNotFound := by
  induction snap with
  | nil =>
    intro fs subs fs' subs' e h
    rw [processFiles_nil] at h
    injection h with h1 h2
    injection h2 with h2 h3
    subst h3
    exact ⟨fun hx => Option.noConfusion hx, fun hx => Option.noConfusion hx⟩
  | cons name rest ih =>
    intro fs subs fs' subs' e h
    rcases processFiles_cons_inv h with ⟨hb, hrec⟩ |
      ⟨cat, target, hext, hcat, hfind, hdir, hsrc, hrec⟩ |
      ⟨cat, e', hext, hcat, req, hkind⟩
    · exact ih hrec
    · exact ih hrec
    · injection req with h1 h2
      injection h2 with h2 h3
      subst h3
      rcases hkind with rfl | rfl | rfl
      · exact ⟨fun hx => Err.noConfusion (Option.some.inj hx),
          fun hx => Err.noConfusion (Option.some.inj hx)⟩
      · exact ⟨fun hx => Err.noConfusion (Option.some.inj hx),
          fun hx => Err.noConfusion (Option.some.inj hx)⟩
      · exact ⟨fun hx => Err.noConfusion (Option.some.inj hx),
          fun hx => Err.noConfusion (Option.some.inj hx)⟩

/-- A subdirectory present when the file loop starts is still present
when it ends, with the same subdirectories and at least its original
files. -/
theorem processFiles_findDir_mono {cfg : Config} {snap : List String} :
    ∀ {fs : List String} {subs : List (String × Dir)}
      {fs' : List String} {subs' : List (String × Dir)} {e : Option Err}
      {c : String} {s : Dir},
      processFiles cfg snap fs subs = (fs', subs', e) →
      findDir subs c = some s →
      ∃ s', findDir subs' c = some s' ∧
        (∀ y ∈ s.files, y ∈ s'.files) ∧ s'.subdirs = s.subdirs := by
  induction snap with
  | nil =>
    intro fs subs fs' subs' e c s h hfind
    rw [processFiles_nil] at h
    injection h with h1 h2
    injection h2 with h2 h3
    subst h2
    exact ⟨s, hfind, fun y hy => hy, rfl⟩
  | cons name rest ih =>
    intro fs subs fs' subs' e c s h hfind
    rcases processFiles_cons_inv h with ⟨hb, hrec⟩ |
      ⟨cat, target, hext, hcat, hfd, hdir, hsrc, hrec⟩ |
      ⟨cat, e', hext, hcat, req, hkind⟩
    · exact ih hrec hfind
    · have h1 : findDir (create_subfolder fs subs cat) c = some s :=
        create_findDir_mono hfind
      by_cases hc : c = cat
      · subst hc
        have h2 : findDir (moveInto (create_subfolder fs subs c) c name) c
            = some (s.addFile name) := by
          rw [findDir_moveInto, if_pos rfl, h1]
          rfl
        obtain ⟨s', hs', hmono, hsub⟩ := ih hrec h2
        refine ⟨s', hs', fun y hy => hmono y (addFile_files.mpr (Or.inr hy)), ?_⟩
        rw [hsub, addFile_subdirs]
      · have h2 : findDir (moveInto (create_subfolder fs subs cat) cat name) c
            = some s := by
          rw [findDir_moveInto, if_neg hc]
          exact h1
        exact ih hrec h2
    · injection req with r1 r2
      injection r2 with r2 r3
      subst r2
      exact ⟨s, create_findDir_mono hfind, fun y hy => hy, rfl⟩

/-- Provenance of a file found inside a subdirectory after the file
loop: either it was already there, or it was moved there because its
extension maps to that subdirectory's name. -/
theorem processFiles_entry_from {cfg : Config} {snap : List String} :
    ∀ {fs : List String} {subs : List (String × Dir)}
      {fs' : List String} {subs' : List (String × Dir)} {e : Option Err}
      {c x : String} {s' : Dir},
      processFiles cfg snap fs subs = (fs', subs', e) →
      findDir subs' c = some s' → x ∈ s'.files →
      (∃ s, findDir subs c = some s ∧ x ∈ s.files) ∨
        (classify x ≠ "" ∧ lookupMap cfg.EXTENSIONS (classify x) = some c) := by
  induction snap with
  | nil =>
    intro fs subs fs' subs' e c x s' h hfind hx
    rw [processFiles_nil] at h
    injection h with h1 h2
    injection h2 with h2 h3
    subst h2
    exact Or.inl ⟨s', hfind, hx⟩
  | cons name rest ih =>
    intro fs subs fs' subs' e c x s' h hfind hx
    rcases processFiles_cons_inv h with ⟨hb, hrec⟩ |
      ⟨cat, target, hext, hcat, hfd, hdir, hsrc, hrec⟩ |
      ⟨cat, e', hext, hcat, req, hkind⟩
    · exact ih hrec hfind hx
    · rcases ih hrec hfind hx with ⟨s2, hs2, hxs2⟩ | hr
      · rw [findDir_moveInto] at hs2
        by_cases hc : c = cat
        · subst hc
          rw [if_pos rfl] at hs2
          cases hfd1 : findDir (create_subfolder fs subs c) c with
          | none => rw [hfd1] at hs2; cases hs2
          | some s1 =>
            rw [hfd1] at hs2
            obtain rfl : s1.addFile name = s2 := Option.some.inj hs2
            rcases addFile_files.mp hxs2 with hxn | hx1
            · subst hxn
              exact Or.inr ⟨hext, hcat⟩
            · rcases create_findDir_from hfd1 with hor | ⟨_, rfl⟩
              · exact Or.inl ⟨s1, hor, hx1⟩
              · simp [Dir.files] at hx1
        · rw [if_neg hc] at hs2
          rcases create_findDir_from hs2 with hor | ⟨heq, rfl⟩
          · exact Or.inl ⟨s2, hor, hxs2⟩
          · exact absurd heq hc
      · exact Or.inr hr
    · injection req with r1 r2
      injection r2 with r2 r3
      subst r2
      rcases create_findDir_from hfind with hor | ⟨heq, rfl⟩
      · exact Or.inl ⟨s', hor, hx⟩
      · simp [Dir.files] at hx

/-- A file of the directory whose extension is a known key either
survives the file loop at top level (in particular when the loop aborts
first) or ends up inside the subdirectory its category names. -/
theorem processFiles_moved_or_stays {cfg : Config} {snap : List String} :
    ∀ {fs : List String} {subs : List (String × Dir)}
      {fs' : List String} {subs' : List (String × Dir)} {e : Option Err}
      {x cat : String},
      x ∈ fs → classify x ≠ "" →
      lookupMap cfg.EXTENSIONS (classify x) = some cat →
      processFiles cfg snap fs subs = (fs', subs', e) →
      x ∈ fs' ∨ ∃ s', findDir subs' cat = some s' ∧ x ∈ s'.files := by
  induction snap with
  | nil =>
    intro fs subs fs' subs' e x cat hx hext hcat h
    rw [processFiles_nil] at h
    injection h with h1 h2
    subst h1
    exact Or.inl hx
  | cons name rest ih =>
    intro fs subs fs' subs' e x cat hx hext hcat h
    rcases processFiles_cons_inv h with ⟨hb, hrec⟩ |
      ⟨cat0, target, hext0, hcat0, hfd, hdir, hsrc, hrec⟩ |
      ⟨cat0, e', hext0, hcat0, req, hkind⟩
    · exact ih hx hext hcat hrec
    · by_cases hxn : x = name
      · subst hxn
        obtain rfl : cat0 = cat := by
          rw [hcat0] at hcat
          exact Option.some.inj hcat
        have h2 : findDir (moveInto (create_subfolder fs subs cat0) cat0 x) cat0
            = some (target.addFile x) := by
          rw [findDir_moveInto, if_pos rfl, hfd]
          rfl
        obtain ⟨s', hs', hmono, _⟩ := processFiles_findDir_mono hrec h2
        exact Or.inr ⟨s', hs', hmono x (addFile_files.mpr (Or.inl rfl))⟩
      · exact ih ((List.mem_erase_of_ne hxn).mpr hx) hext hcat hrec
    · injection req with r1 r2
      subst r1
      exact Or.inl hx

/-- After a successful file loop over a duplicate-free snapshot, every
surviving top-level file was either absent from the snapshot or has an
empty or unknown extension. -/
theorem processFiles_success_bad {cfg : Config} {snap : List String} :
    ∀ {fs : List String} {subs : List (String × Dir)}
      {fs' : List String} {subs' : List (String × Dir)},
      fs.Nodup →
      processFiles cfg snap fs subs = (fs', subs', none) →
      ∀ x ∈ fs',
        x ∉ snap ∨ classify x = "" ∨
          lookupMap cfg.EXTENSIONS (classify x) = none := by
  induction snap with
  | nil =>
    intro fs subs fs' subs' hnd h x hx
    exact Or.inl (List.not_mem_nil x)
  | cons name rest ih =>
    intro fs subs fs' subs' hnd h x hx
    rcases processFiles_cons_inv h with ⟨hb, hrec⟩ |
      ⟨cat, target, hext, hcat, hfd, hdir, hsrc, hrec⟩ |
      ⟨cat, e', hext, hcat, req, hkind⟩
    · rcases ih hnd hrec x hx with hns | hbad
      · by_cases hxn : x = name
        · subst hxn
          exact Or.inr hb
        · refine Or.inl fun hmem => ?_
          rcases List.mem_cons.mp hmem with h1 | h1
          · exact hxn h1
          · exact hns h1
      · exact Or.inr hbad
    · have hnd1 : (fs.erase name).Nodup := hnd.erase name
      rcases ih hnd1 hrec x hx with hns | hbad
      · have hxfs1 : x ∈ fs.erase name := processFiles_files_subset hrec hx
        have hxn : x ≠ name := by
          intro heq
          subst heq
          exact hnd.not_mem_erase hxfs1
        refine Or.inl fun hmem => ?_
        rcases List.mem_cons.mp hmem with h1 | h1
        · exact hxn h1
        · exact hns h1
      · exact Or.inr hbad
    · injection req with r1 r2
      injection r2 with r2 r3
      exact Option.noConfusion r3

/-- The file loop preserves well-formedness of the directory, also when
it stops with an error. -/
theorem processFiles_wf {cfg : Config} {snap : List String} :
    ∀ {fs : List String} {subs : List (String × Dir)}
      {fs' : List String} {subs' : List (String × Dir)} {e : Option Err},
      Dir.wf (.mk fs subs) = true →
      processFiles cfg snap fs subs = (fs', subs', e) →
      Dir.wf (.mk fs' subs') = true := by
  induction snap with
  | nil =>
    intro fs subs fs' subs' e hwf h
    rw [processFiles_nil] at h
    injection h with h1 h2
    injection h2 with h2 h3
    subst h1
    subst h2
    exact hwf
  | cons name rest ih =>
    intro fs subs fs' subs' e hwf h
    rcases processFiles_cons_inv h with ⟨hb, hrec⟩ |
      ⟨cat, target, hext, hcat, hfd, hdir, hsrc, hrec⟩ |
      ⟨cat, e', hext, hcat, req, hkind⟩
    · exact ih hwf hrec
    · have hwf1 : Dir.wf (.mk fs (create_subfolder fs subs cat)) = true :=
        create_wf hwf
      rcases wf_mk_iff.mp hwf1 with ⟨w1, w2, w3, w4⟩
      have htwf : target.wf = true := wfList_mem w4 (findDir_mem hfd)
      have haf : (target.addFile name).wf = true := addFile_wf htwf hdir
      have hwf2 : Dir.wf (.mk (fs.erase name)
          (moveInto (create_subfolder fs subs cat) cat name)) = true := by
        refine wf_mk_iff.mpr ⟨w1.erase name, ?_, ?_, ?_⟩
        · rw [moveInto_dirNames]
          exact w2
        · intro n hn
          rw [moveInto_dirNames] at hn
          exact fun hmem => w3 n hn (List.erase_subset _ _ hmem)
        · exact moveInto_wfList w4 hfd haf
      exact ih hwf2 hrec
    · injection req with r1 r2
      injection r2 with r2 r3
      subst r1
      subst r2
      exact create_wf hwf

/-- A subdirectory whose name is not a category name is untouched by
the file loop: moves and folder creation only concern category names. -/
theorem processFiles_plain_findDir {cfg : Config} {snap : List String} :
    ∀ {fs : List String} {subs : List (String × Dir)}
      {fs' : List String} {subs' : List (String × Dir)} {e : Option Err}
      {c : String},
      processFiles cfg snap fs subs = (fs', subs', e) →
      c ∉ SUBFOLDER_NAMES cfg →
      findDir subs' c = findDir subs c := by
  induction snap with
  | nil =>
    intro fs subs fs' subs' e c h hc
    rw [processFiles_nil] at h
    injection h with h1 h2
    injection h2 with h2 h3
    subst h2
    rfl
  | cons name rest ih =>
    intro fs subs fs' subs' e c h hc
    rcases processFiles_cons_inv h with ⟨hb, hrec⟩ |
      ⟨cat, target, hext, hcat, hfd, hdir, hsrc, hrec⟩ |
      ⟨cat, e', hext, hcat, req, hkind⟩
    · exact ih hrec hc
    · have hcc : c ≠ cat := by
        intro he
        subst he
        exact hc (lookup_mem_values hcat)
      have hstep : findDir (moveInto (create_subfolder fs subs cat) cat name) c
          = findDir subs c := by
        rw [findDir_moveInto, if_neg hcc, create_findDir_other hcc]
      rw [ih hrec hc, hstep]
    · injection req with r1 r2
      injection r2 with r2 r3
      subst r2
      have hcc : c ≠ cat := by
        intro he
        subst he
        exact hc (lookup_mem_values hcat)
      exact create_findDir_other hcc

theorem files_mk {fs : List String} {subs : List (String × Dir)} :
    (Dir.mk fs subs).files = fs := rfl

theorem subdirs_mk {fs : List String} {subs : List (String × Dir)} :
    (Dir.mk fs subs).subdirs = subs := rfl

theorem moveInto_mem {subs : List (String × Dir)} {cat name : String}
    {p : String × Dir} (h : p ∈ moveInto subs cat name) :
    p ∈ subs ∨ p.1 = cat := by
  induction subs with
  | nil => simp [moveInto] at h
  | cons q rest ih =>
    obtain ⟨m, d0⟩ := q
    by_cases hm : m = cat
    · subst hm
      simp only [moveInto, if_pos rfl] at h
      rcases List.mem_cons.mp h with rfl | hmem
      · exact Or.inr rfl
      · exact Or.inl (List.mem_cons_of_mem _ hmem)
    · simp only [moveInto, if_neg hm] at h
      rcases List.mem_cons.mp h with rfl | hmem
      · exact Or.inl (List.mem_cons_self _ _)
      · rcases ih hmem with h1 | h1
        · exact Or.inl (List.mem_cons_of_mem _ h1)
        · exact Or.inr h1

theorem create_mem {fs : List String} {subs : List (String × Dir)}
    {cat : String} {p : String × Dir} (h : p ∈ create_subfolder fs subs cat) :
    p ∈ subs ∨ p.1 = cat := by
  unfold create_subfolder at h
  split at h
  · exact Or.inl h
  · rcases List.mem_append.mp h with h1 | h1
    · exact Or.inl h1
    · rcases List.mem_singleton.mp h1 with rfl
      exact Or.inr rfl

/-- An entry of the post-loop listing whose name is not a category name
is an entry of the original listing, unchanged. -/
theorem processFiles_plain_mem {cfg : Config} {snap : List String} :
    ∀ {fs : List String} {subs : List (String × Dir)}
      {fs' : List String} {subs' : List (String × Dir)} {e : Option Err}
      {p : String × Dir},
      processFiles cfg snap fs subs = (fs', subs', e) →
      p ∈ subs' → p.1 ∉ SUBFOLDER_NAMES cfg → p ∈ subs := by
  induction snap with
  | nil =>
    intro fs subs fs' subs' e p h hp hplain
    rw [processFiles_nil] at h
    injection h with h1 h2
    injection h2 with h2 h3
    subst h2
    exact hp
  | cons name rest ih =>
    intro fs subs fs' subs' e p h hp hplain
    rcases processFiles_cons_inv h with ⟨hb, hrec⟩ |
      ⟨cat, target, hext, hcat, hfd, hdir, hsrc, hrec⟩ |
      ⟨cat, e', hext, hcat, req, hkind⟩
    · exact ih hrec hp hplain
    · have hpcat : p.1 ≠ cat := by
        intro he
        exact hplain (he ▸ lookup_mem_values hcat)
      have h1 : p ∈ moveInto (create_subfolder fs subs cat) cat name :=
        ih hrec hp hplain
      rcases moveInto_mem h1 with h2 | h2
      · rcases create_mem h2 with h3 | h3
        · exact h3
        · exact absurd h3 hpcat
      · exact absurd h2 hpcat
    · injection req with r1 r2
      injection r2 with r2 r3
      subst r2
      have hpcat : p.1 ≠ cat := by
        intro he
        exact hplain (he ▸ lookup_mem_values hcat)
      rcases create_mem hp with h3 | h3
      · exact h3
      · exact absurd h3 hpcat

/-! ### Unfolding equations for the sorter -/

theorem sort_zero {cfg : Config} {recursive : Bool} {d : Dir} :
    sort_files_by_extensions cfg 0 recursive d = (d, some Err.depthExceeded) := rfl

theorem sort_succ_err {cfg : Config} {fuel : Nat} {recursive : Bool} {d : Dir}
    {fs' : List String} {subs' : List (String × Dir)} {e : Err}
    (h : processFiles cfg d.files d.files d.subdirs = (fs', subs', some e)) :
    sort_files_by_extensions cfg (fuel + 1) recursive d = (Dir.mk fs' subs', some e) := by
  simp only [sort_files_by_extensions, h]

theorem sort_succ_ok_norec {cfg : Config} {fuel : Nat} {d : Dir}
    {fs' : List String} {subs' : List (String × Dir)}
    (h : processFiles cfg d.files d.files d.subdirs = (fs', subs', none)) :
    sort_files_by_extensions cfg (fuel + 1) false d = (Dir.mk fs' subs', none) := by
  simp only [sort_files_by_extensions, h, if_neg (by decide : ¬ false = true)]

theorem sort_succ_ok_rec {cfg : Config} {fuel : Nat} {d : Dir}
    {fs' : List String} {subs' : List (String × Dir)}
    (h : processFiles cfg d.files d.files d.subdirs = (fs', subs', none)) :
    sort_files_by_extensions cfg (fuel + 1) true d =
      (Dir.mk fs'
        (processSubfolders cfg
          (fun sub => sort_files_by_extensions cfg fuel true sub) subs').1,
       (processSubfolders cfg
          (fun sub => sort_files_by_extensions cfg fuel true sub) subs').2) := by
  simp only [sort_files_by_extensions, h, if_pos rfl, if_true]

/-! ### Lemmas about the subdirectory loop -/

theorem processSubfolders_nil {cfg : Config} {f : Dir → Dir × Option Err} :
    processSubfolders cfg f [] = ([], none) := rfl

theorem processSubfolders_cons_skip {cfg : Config} {f : Dir → Dir × Option Err}
    {n : String} {sub : Dir} {rest : List (String × Dir)}
    (h : n ∈ SUBFOLDER_NAMES cfg ∨ n = cfg.logsName) :
    processSubfolders cfg f ((n, sub) :: rest) =
      ((n, sub) :: (processSubfolders cfg f rest).1,
        (processSubfolders cfg f rest).2) := by
  simp only [processSubfolders, if_pos h]

theorem processSubfolders_cons_err {cfg : Config} {f : Dir → Dir × Option Err}
    {n : String} {sub sub' : Dir} {rest : List (String × Dir)} {e : Err}
    (hskip : ¬(n ∈ SUBFOLDER_NAMES cfg ∨ n = cfg.logsName))
    (hf : f sub = (sub', some e)) :
    processSubfolders cfg f ((n, sub) :: rest) = ((n, sub') :: rest, some e) := by
  simp only [processSubfolders, if_neg hskip, hf]

theorem processSubfolders_cons_ok {cfg : Config} {f : Dir → Dir × Option Err}
    {n : String} {sub sub' : Dir} {rest : List (String × Dir)}
    (hskip : ¬(n ∈ SUBFOLDER_NAMES cfg ∨ n = cfg.logsName))
    (hf : f sub = (sub', none)) :
    processSubfolders cfg f ((n, sub) :: rest) =
      ((n, sub') :: (processSubfolders cfg f rest).1,
        (processSubfolders cfg f rest).2) := by
  simp only [processSubfolders, if_neg hskip, hf]

/-- Two recursive sorts that agree on every subdirectory actually
recursed into give the same subdirectory loop. -/
theorem processSubfolders_congr {cfg : Config} {f g : Dir → Dir × Option Err} :
    ∀ {subs : List (String × Dir)},
      (∀ p ∈ subs,
        ¬(p.1 ∈ SUBFOLDER_NAMES cfg ∨ p.1 = cfg.logsName) → f p.2 = g p.2) →
      processSubfolders cfg f subs = processSubfolders cfg g subs := by
  intro subs
  induction subs with
  | nil => intro _; rfl
  | cons p rest ih =>
    intro hall
    obtain ⟨n, sub⟩ := p
    by_cases hskip : n ∈ SUBFOLDER_NAMES cfg ∨ n = cfg.logsName
    · rw [processSubfolders_cons_skip hskip, processSubfolders_cons_skip hskip,
        ih fun q hq => hall q (List.mem_cons_of_mem _ hq)]
    · have hfg : f sub = g sub := hall (n, sub) (List.mem_cons_self _ _) hskip
      rcases hg : g sub with ⟨sub', e2⟩
      cases e2 with
      | some e =>
        rw [processSubfolders_cons_err hskip (hfg.trans hg),
          processSubfolders_cons_err hskip hg]
      | none =>
        rw [processSubfolders_cons_ok hskip (hfg.trans hg),
          processSubfolders_cons_ok hskip hg,
          ih fun q hq => hall q (List.mem_cons_of_mem _ hq)]

/-- The subdirectory loop never touches an entry with a reserved name
(a category name or the log directory name). -/
theorem processSubfolders_skip_findDir {cfg : Config} {f : Dir → Dir × Option Err}
    {n : String} (hskip : n ∈ SUBFOLDER_NAMES cfg ∨ n = cfg.logsName) :
    ∀ {subs : List (String × Dir)},
      findDir (processSubfolders cfg f subs).1 n = findDir subs n := by
  intro subs
  induction subs with
  | nil => rfl
  | cons p rest ih =>
    obtain ⟨m, sub⟩ := p
    by_cases hm : m ∈ SUBFOLDER_NAMES cfg ∨ m = cfg.logsName
    · rw [processSubfolders_cons_skip hm]
      by_cases hmn : m = n
      · subst hmn; simp [findDir]
      · simp only [findDir, if_neg hmn]
        exact ih
    · have hmn : m ≠ n := fun he => hm (he ▸ hskip)
      rcases hg : f sub with ⟨sub', e2⟩
      cases e2 with
      | some e =>
        rw [processSubfolders_cons_err hm hg]
        simp only [findDir, if_neg hmn]
      | none =>
        rw [processSubfolders_cons_ok hm hg]
        simp only [findDir, if_neg hmn]
        exact ih

/-- On a successful subdirectory loop, each plain subdirectory is
replaced by the result of the recursive sort, which succeeded. -/
theorem processSubfolders_ok_plain {cfg : Config} {f : Dir → Dir × Option Err}
    {n : String} (hskip : ¬(n ∈ SUBFOLDER_NAMES cfg ∨ n = cfg.logsName)) :
    ∀ {subs subs'' : List (String × Dir)} {s : Dir},
      processSubfolders cfg f subs = (subs'', none) →
      findDir subs n = some s →
      ∃ s', f s = (s', none) ∧ findDir subs'' n = some s' := by
  intro subs
  induction subs with
  | nil =>
    intro subs'' s h hfind
    cases hfind
  | cons p rest ih =>
    intro subs'' s h hfind
    obtain ⟨m, sub⟩ := p
    by_cases hm : m ∈ SUBFOLDER_NAMES cfg ∨ m = cfg.logsName
    · have hmn : m ≠ n := fun he => hskip (he ▸ hm)
      simp only [findDir, if_neg hmn] at hfind
      rw [processSubfolders_cons_skip hm] at h
      injection h with h1 h2
      subst h1
      have hrec : processSubfolders cfg f rest =
          ((processSubfolders cfg f rest).1, none) := by rw [← h2]
      obtain ⟨s', hs1, hs2⟩ := ih hrec hfind
      exact ⟨s', hs1, by simp only [findDir, if_neg hmn]; exact hs2⟩
    · rcases hg : f sub with ⟨sub', e2⟩
      cases e2 with
      | some e =>
        rw [processSubfolders_cons_err hm hg] at h
        injection h with h1 h2
        cases h2
      | none =>
        rw [processSubfolders_cons_ok hm hg] at h
        injection h with h1 h2
        subst h1
        by_cases hmn : m = n
        · subst hmn
          simp only [findDir, if_pos rfl] at hfind
          obtain rfl : sub = s := Option.some.inj hfind
          exact ⟨sub', hg, by simp [findDir]⟩
        · simp only [findDir, if_neg hmn] at hfind
          have hrec : processSubfolders cfg f rest =
              ((processSubfolders cfg f rest).1, none) := by rw [← h2]
          obtain ⟨s', hs1, hs2⟩ := ih hrec hfind
          exact ⟨s', hs1, by simp only [findDir, if_neg hmn]; exact hs2⟩

/-- Converse of `processSubfolders_ok_plain`: a plain entry of the
result listing arises from sorting the original entry of that name. -/
theorem processSubfolders_plain_inv {cfg : Config} {f : Dir → Dir × Option Err}
    {n : String} (hskip : ¬(n ∈ SUBFOLDER_NAMES cfg ∨ n = cfg.logsName)) :
    ∀ {subs subs'' : List (String × Dir)} {s'' : Dir},
      processSubfolders cfg f subs = (subs'', none) →
      findDir subs'' n = some s'' →
      ∃ s, findDir subs n = some s ∧ f s = (s'', none) := by
  intro subs
  induction subs with
  | nil =>
    intro subs'' s'' h hfind
    rw [processSubfolders_nil] at h
    injection h with h1 h2
    subst h1
    cases hfind
  | cons p rest ih =>
    intro subs'' s'' h hfind
    obtain ⟨m, sub⟩ := p
    by_cases hm : m ∈ SUBFOLDER_NAMES cfg ∨ m = cfg.logsName
    · have hmn : m ≠ n := fun he => hskip (he ▸ hm)
      rw [processSubfolders_cons_skip hm] at h
      injection h with h1 h2
      subst h1
      simp only [findDir, if_neg hmn] at hfind
      have hrec : processSubfolders cfg f rest =
          ((processSubfolders cfg f rest).1, none) := by rw [← h2]
      obtain ⟨s, hs1, hs2⟩ := ih hrec hfind
      exact ⟨s, by simp only [findDir, if_neg hmn]; exact hs1, hs2⟩
    · rcases hg : f sub with ⟨sub', e2⟩
      cases e2 with
      | some e =>
        rw [processSubfolders_cons_err hm hg] at h
        injection h with h1 h2
        cases h2
      | none =>
        rw [processSubfolders_cons_ok hm hg] at h
        injection h with h1 h2
        subst h1
        by_cases hmn : m = n
        · subst hmn
          simp only [findDir, if_pos rfl] at hfind
          obtain rfl : sub' = s'' := Option.some.inj hfind
          exact ⟨sub, by simp [findDir], hg⟩
        · simp only [findDir, if_neg hmn] at hfind
          have hrec : processSubfolders cfg f rest =
              ((processSubfolders cfg f rest).1, none) := by rw [← h2]
          obtain ⟨s, hs1, hs2⟩ := ih hrec hfind
          exact ⟨s, by simp only [findDir, if_neg hmn]; exact hs1, hs2⟩

/-- The subdirectory loop changes no entry names. -/
theorem processSubfolders_dirNames {cfg : Config} {f : Dir → Dir × Option Err} :
    ∀ {subs : List (String × Dir)},
      dirNames (processSubfolders cfg f subs).1 = dirNames subs := by
  intro subs
  induction subs with
  | nil => rfl
  | cons p rest ih =>
    obtain ⟨m, sub⟩ := p
    by_cases hm : m ∈ SUBFOLDER_NAMES cfg ∨ m = cfg.logsName
    · rw [processSubfolders_cons_skip hm]
      simp only [dirNames, List.map_cons]
      rw [show List.map Prod.fst (processSubfolders cfg f rest).1 = dirNames (processSubfolders cfg f rest).1 from rfl, ih]
      rfl
    · rcases hg : f sub with ⟨sub', e2⟩
      cases e2 with
      | some e =>
        rw [processSubfolders_cons_err hm hg]
        simp [dirNames]
      | none =>
        rw [processSubfolders_cons_ok hm hg]
        simp only [dirNames, List.map_cons]
        rw [show List.map Prod.fst (processSubfolders cfg f rest).1 = dirNames (processSubfolders cfg f rest).1 from rfl, ih]
        rfl

/-- The subdirectory loop preserves well-formedness of every entry when
the recursive sort does. -/
theorem processSubfolders_wfList {cfg : Config} {f : Dir → Dir × Option Err}
    (hf : ∀ d : Dir, d.wf = true → ((f d).1).wf = true) :
    ∀ {subs : List (String × Dir)},
      wfList subs = true → wfList (processSubfolders cfg f subs).1 = true := by
  intro subs
  induction subs with
  | nil => intro _; rfl
  | cons p rest ih =>
    intro hwf
    obtain ⟨m, sub⟩ := p
    rcases wfList_cons.mp hwf with ⟨hsub, hrest⟩
    by_cases hm : m ∈ SUBFOLDER_NAMES cfg ∨ m = cfg.logsName
    · rw [processSubfolders_cons_skip hm]
      exact wfList_cons.mpr ⟨hsub, ih hrest⟩
    · rcases hg : f sub with ⟨sub', e2⟩
      have hsub' : sub'.wf = true := by
        have := hf sub hsub
        rw [hg] at this
        exact this
      cases e2 with
      | some e =>
        rw [processSubfolders_cons_err hm hg]
        exact wfList_cons.mpr ⟨hsub', hrest⟩
      | none =>
        rw [processSubfolders_cons_ok hm hg]
        exact wfList_cons.mpr ⟨hsub', ih hrest⟩

/-- The subdirectory loop reports fuel exhaustion only if some
recursive call does. -/
theorem processSubfolders_no_depth_err {cfg : Config} {f : Dir → Dir × Option Err} :
    ∀ {subs : List (String × Dir)},
      (∀ p ∈ subs, ¬(p.1 ∈ SUBFOLDER_NAMES cfg ∨ p.1 = cfg.logsName) →
        (f p.2).2 ≠ some Err.depthExceeded) →
      (processSubfolders cfg f subs).2 ≠ some Err.depthExceeded := by
  intro subs
  induction subs with
  | nil => intro _ h; cases h
  | cons p rest ih =>
    intro hall
    obtain ⟨m, sub⟩ := p
    by_cases hm : m ∈ SUBFOLDER_NAMES cfg ∨ m = cfg.logsName
    · rw [processSubfolders_cons_skip hm]
      exact ih fun q hq => hall q (List.mem_cons_of_mem _ hq)
    · rcases hg : f sub with ⟨sub', e2⟩
      cases e2 with
      | some e =>
        rw [processSubfolders_cons_err hm hg]
        intro hcontra
        apply hall (m, sub) (List.mem_cons_self _ _) hm
        rw [hg]
        exact hcontra
      | none =>
        rw [processSubfolders_cons_ok hm hg]
        exact ih fun q hq => hall q (List.mem_cons_of_mem _ hq)

/-- The files directly inside any entry of the result listing already
were inside the entry of that name, when the recursive sort never adds
top-level files. -/
theorem processSubfolders_files_from {cfg : Config} {f : Dir → Dir × Option Err}
    (hf : ∀ d : Dir, ∀ y ∈ ((f d).1).files, y ∈ d.files) :
    ∀ {subs : List (String × Dir)} {n : String} {s' : Dir},
      findDir (processSubfolders cfg f subs).1 n = some s' →
      ∃ s, findDir subs n = some s ∧ ∀ y ∈ s'.files, y ∈ s.files := by
  intro subs
  induction subs with
  | nil =>
    intro n s' hfind
    cases hfind
  | cons p rest ih =>
    intro n s' hfind
    obtain ⟨m, sub⟩ := p
    by_cases hm : m ∈ SUBFOLDER_NAMES cfg ∨ m = cfg.logsName
    · rw [processSubfolders_cons_skip hm] at hfind
      by_cases hmn : m = n
      · subst hmn
        simp only [findDir, if_pos rfl] at hfind ⊢
        obtain rfl : sub = s' := Option.some.inj hfind
        exact ⟨sub, rfl, fun y hy => hy⟩
      · simp only [findDir, if_neg hmn] at hfind ⊢
        exact ih hfind
    · rcases hg : f sub with ⟨sub', e2⟩
      have hsubf : ∀ y ∈ sub'.files, y ∈ sub.files := by
        intro y hy
        apply hf sub
        rw [hg]
        exact hy
      cases e2 with
      | some e =>
        rw [processSubfolders_cons_err hm hg] at hfind
        by_cases hmn : m = n
        · subst hmn
          simp only [findDir, if_pos rfl] at hfind ⊢
          obtain rfl : sub' = s' := Option.some.inj hfind
          exact ⟨sub, rfl, hsubf⟩
        · simp only [findDir, if_neg hmn] at hfind ⊢
          exact ⟨s', hfind, fun y hy => hy⟩
      | none =>
        rw [processSubfolders_cons_ok hm hg] at hfind
        by_cases hmn : m = n
        · subst hmn
          simp only [findDir, if_pos rfl] at hfind ⊢
          obtain rfl : sub' = s' := Option.some.inj hfind
          exact ⟨sub, rfl, hsubf⟩
        · simp only [findDir, if_neg hmn] at hfind ⊢
          exact ih hfind

/-- Re-running the subdirectory loop on the output of a successful run
is the identity, when re-sorting each already-sorted plain subdirectory
is the identity. -/
theorem processSubfolders_stable {cfg : Config} {fa fb : Dir → Dir × Option Err} :
    ∀ {subs subs'' : List (String × Dir)},
      (∀ p ∈ subs, ∀ sub', ¬(p.1 ∈ SUBFOLDER_NAMES cfg ∨ p.1 = cfg.logsName) →
        (p.1, sub') ∈ subs'' → fa p.2 = (sub', none) → fb sub' = (sub', none)) →
      processSubfolders cfg fa subs = (subs'', none) →
      processSubfolders cfg fb subs'' = (subs'', none) := by
  intro subs
  induction subs with
  | nil =>
    intro subs'' hall h
    rw [processSubfolders_nil] at h
    injection h with h1 h2
    subst h1
    rfl
  | cons p rest ih =>
    intro subs'' hall h
    obtain ⟨m, sub⟩ := p
    by_cases hm : m ∈ SUBFOLDER_NAMES cfg ∨ m = cfg.logsName
    · rw [processSubfolders_cons_skip hm] at h
      injection h with h1 h2
      subst h1
      have hrec : processSubfolders cfg fa rest =
          ((processSubfolders cfg fa rest).1, none) := by rw [← h2]
      have hih := ih (fun q hq sub0 hns hmem hfa =>
        hall q (List.mem_cons_of_mem _ hq) sub0 hns
          (List.mem_cons_of_mem _ hmem) hfa) hrec
      rw [processSubfolders_cons_skip hm, hih]
    · rcases hg : fa sub with ⟨sub', e2⟩
      cases e2 with
      | some e =>
        rw [processSubfolders_cons_err hm hg] at h
        injection h with h1 h2
        cases h2
      | none =>
        rw [processSubfolders_cons_ok hm hg] at h
        injection h with h1 h2
        subst h1
        have hfb : fb sub' = (sub', none) :=
          hall (m, sub) (List.mem_cons_self _ _) sub' hm
            (List.mem_cons_self _ _) hg
        have hrec : processSubfolders cfg fa rest =
            ((processSubfolders cfg fa rest).1, none) := by rw [← h2]
        have hih := ih (fun q hq sub0 hns hmem hfa =>
          hall q (List.mem_cons_of_mem _ hq) sub0 hns
            (List.mem_cons_of_mem _ hmem) hfa) hrec
        rw [processSubfolders_cons_ok hm hfb, hih]

theorem dir_eta (d : Dir) : Dir.mk d.files d.subdirs = d := by
  obtain ⟨fs, subs⟩ := d
  rfl

theorem depth_eq (d : Dir) : d.depth = 1 + depthList d.subdirs := by
  obtain ⟨fs, subs⟩ := d
  rfl

/-! ### Lemmas about the full sort -/

/-- The sorter never adds a file at the top level of the directory it
sorts. -/
theorem sort_files_subset {cfg : Config} :
    ∀ (fuel : Nat) {recursive : Bool} {d : Dir} {y : String},
      y ∈ ((sort_files_by_extensions cfg fuel recursive d).1).files →
      y ∈ d.files := by
  intro fuel
  induction fuel with
  | zero =>
    intro r d y hy
    rw [sort_zero] at hy
    exact hy
  | succ a ih =>
    intro r d y hy
    rcases hp : processFiles cfg d.files d.files d.subdirs with ⟨fs', subs', e⟩
    cases e with
    | some e =>
      rw [sort_succ_err hp] at hy
      exact processFiles_files_subset hp hy
    | none =>
      cases r with
      | false =>
        rw [sort_succ_ok_norec hp] at hy
        exact processFiles_files_subset hp hy
      | true =>
        rw [sort_succ_ok_rec hp] at hy
        exact processFiles_files_subset hp hy

/-- The sorter preserves well-formedness of the tree. -/
theorem sort_wf {cfg : Config} :
    ∀ (fuel : Nat) {recursive : Bool} {d : Dir},
      d.wf = true → ((sort_files_by_extensions cfg fuel recursive d).1).wf = true := by
  intro fuel
  induction fuel with
  | zero =>
    intro r d hwf
    rw [sort_zero]
    exact hwf
  | succ a ih =>
    intro r d hwf
    have hdwf : Dir.wf (.mk d.files d.subdirs) = true := by
      rw [dir_eta]
      exact hwf
    rcases hp : processFiles cfg d.files d.files d.subdirs with ⟨fs', subs', e⟩
    have hwf' : Dir.wf (.mk fs' subs') = true := processFiles_wf hdwf hp
    cases e with
    | some e =>
      rw [sort_succ_err hp]
      exact hwf'
    | none =>
      cases r with
      | false =>
        rw [sort_succ_ok_norec hp]
        exact hwf'
      | true =>
        rw [sort_succ_ok_rec hp]
        rcases wf_mk_iff.mp hwf' with ⟨w1, w2, w3, w4⟩
        refine wf_mk_iff.mpr ⟨w1, ?_, ?_, ?_⟩
        · rw [processSubfolders_dirNames]
          exact w2
        · intro n hn
          rw [processSubfolders_dirNames] at hn
          exact w3 n hn
        · exact processSubfolders_wfList (fun d0 h0 => ih h0) w4

/-- With fuel at least the tree depth — as supplied by `sortDirectory` —
the fuel marker is never reached: the tree walk terminates within the
depth bound. -/
theorem sort_no_depth_err {cfg : Config} :
    ∀ (fuel : Nat) {recursive : Bool} {d : Dir},
      d.depth ≤ fuel →
      (sort_files_by_extensions cfg fuel recursive d).2 ≠ some Err.depthExceeded := by
  intro fuel
  induction fuel with
  | zero =>
    intro r d hd
    have := depth_pos d
    omega
  | succ a ih =>
    intro r d hd
    rcases hp : processFiles cfg d.files d.files d.subdirs with ⟨fs', subs', e⟩
    cases e with
    | some e =>
      rw [sort_succ_err hp]
      exact (processFiles_err_kind hp).1
    | none =>
      cases r with
      | false =>
        rw [sort_succ_ok_norec hp]
        exact fun h => Option.noConfusion h
      | true =>
        rw [sort_succ_ok_rec hp]
        apply processSubfolders_no_depth_err
        intro p hp2 hns
        have hpd : p ∈ d.subdirs :=
          processFiles_plain_mem hp hp2 fun hmem => hns (Or.inl hmem)
        obtain ⟨n0, sub0⟩ := p
        have hdp : sub0.depth ≤ depthList d.subdirs := depthList_le_of_mem hpd
        have hde := depth_eq d
        exact ih (show sub0.depth ≤ a by omega)

/-- The result of the sorter does not depend on the fuel, as long as the
fuel covers the tree depth. -/
theorem sort_irrel {cfg : Config} :
    ∀ (f1 : Nat) {f2 : Nat} {recursive : Bool} {d : Dir},
      d.depth ≤ f1 → d.depth ≤ f2 →
      sort_files_by_extensions cfg f1 recursive d =
        sort_files_by_extensions cfg f2 recursive d := by
  intro f1
  induction f1 with
  | zero =>
    intro f2 r d h1 h2
    have := depth_pos d
    omega
  | succ a ih =>
    intro f2 r d h1 h2
    cases f2 with
    | zero =>
      have := depth_pos d
      omega
    | succ b =>
      rcases hp : processFiles cfg d.files d.files d.subdirs with ⟨fs', subs', e⟩
      cases e with
      | some e => rw [sort_succ_err hp, sort_succ_err hp]
      | none =>
        cases r with
        | false => rw [sort_succ_ok_norec hp, sort_succ_ok_norec hp]
        | true =>
          rw [sort_succ_ok_rec hp, sort_succ_ok_rec hp]
          have hcongr :
              processSubfolders cfg
                (fun sub => sort_files_by_extensions cfg a true sub) subs' =
              processSubfolders cfg
                (fun sub => sort_files_by_extensions cfg b true sub) subs' := by
            apply processSubfolders_congr
            intro p hp2 hns
            have hpd : p ∈ d.subdirs :=
              processFiles_plain_mem hp hp2 fun hmem => hns (Or.inl hmem)
            obtain ⟨n0, sub0⟩ := p
            have hdp : sub0.depth ≤ depthList d.subdirs := depthList_le_of_mem hpd
            have hde := depth_eq d
            exact ih (show sub0.depth ≤ a by omega) (show sub0.depth ≤ b by omega)
          rw [hcongr]

/-- Idempotence core: re-sorting the output of a successful sort (with
enough fuel on both runs) changes nothing and raises no error. -/
theorem sort_stable {cfg : Config} :
    ∀ (fuel : Nat) {recursive : Bool} {d d' : Dir} {fuel' : Nat},
      d.wf = true → d.depth ≤ fuel → d'.depth ≤ fuel' →
      sort_files_by_extensions cfg fuel recursive d = (d', none) →
      sort_files_by_extensions cfg fuel' recursive d' = (d', none) := by
  intro fuel
  induction fuel with
  | zero =>
    intro r d d' f' hwf hd hd' h
    have := depth_pos d
    omega
  | succ a ih =>
    intro r d d' f' hwf hd hd' h
    cases f' with
    | zero =>
      have := depth_pos d'
      omega
    | succ b =>
      rcases hp : processFiles cfg d.files d.files d.subdirs with ⟨fs', subs', e⟩
      have hdwf : Dir.wf (.mk d.files d.subdirs) = true := by
        rw [dir_eta]
        exact hwf
      cases e with
      | some e =>
        rw [sort_succ_err hp] at h
        injection h with h1 h2
        cases h2
      | none =>
        have hfsnodup : d.files.Nodup := (wf_mk_iff.mp hdwf).1
        have hbadall : ∀ x ∈ fs',
            classify x = "" ∨ lookupMap cfg.EXTENSIONS (classify x) = none := by
          intro x hx
          rcases processFiles_success_bad hfsnodup hp x hx with hns | hbad
          · exact absurd (processFiles_files_subset hp hx) hns
          · exact hbad
        cases r with
        | false =>
          rw [sort_succ_ok_norec hp] at h
          injection h with h1 h2
          subst h1
          have H : processFiles cfg (Dir.mk fs' subs').files
              (Dir.mk fs' subs').files (Dir.mk fs' subs').subdirs =
              (fs', subs', none) := processFiles_noop hbadall
          rw [sort_succ_ok_norec H]
        | true =>
          rw [sort_succ_ok_rec hp] at h
          injection h with h1 h2
          subst h1
          have hwf' : Dir.wf (.mk fs' subs') = true := processFiles_wf hdwf hp
          rcases wf_mk_iff.mp hwf' with ⟨w1, w2, w3, w4⟩
          have hP : processSubfolders cfg
              (fun sub => sort_files_by_extensions cfg a true sub) subs' =
              ((processSubfolders cfg
                (fun sub => sort_files_by_extensions cfg a true sub) subs').1,
               none) := by rw [← h2]
          have hdl : depthList d.subdirs ≤ a := by
            have hde := depth_eq d
            omega
          have hdl' : depthList (processSubfolders cfg
              (fun sub => sort_files_by_extensions cfg a true sub) subs').1 ≤ b := by
            have hde := @depth_mk fs'
              (processSubfolders cfg
                (fun sub => sort_files_by_extensions cfg a true sub) subs').1
            omega
          have hstab : processSubfolders cfg
              (fun sub => sort_files_by_extensions cfg b true sub)
              (processSubfolders cfg
                (fun sub => sort_files_by_extensions cfg a true sub) subs').1 =
              ((processSubfolders cfg
                (fun sub => sort_files_by_extensions cfg a true sub) subs').1,
               none) := by
            apply processSubfolders_stable ?_ hP
            intro p hp2 sub' hns hmem hfa
            have hpd : p ∈ d.subdirs :=
              processFiles_plain_mem hp hp2 fun hmem2 => hns (Or.inl hmem2)
            obtain ⟨n0, sub0⟩ := p
            have hwf0 : sub0.wf = true := wfList_mem w4 hp2
            have hdp : sub0.depth ≤ depthList d.subdirs := depthList_le_of_mem hpd
            have hdp' : sub'.depth ≤ depthList (processSubfolders cfg
                (fun sub => sort_files_by_extensions cfg a true sub) subs').1 :=
              depthList_le_of_mem hmem
            exact ih hwf0 (show sub0.depth ≤ a by omega)
              (show sub'.depth ≤ b by omega) hfa
          have H : processFiles cfg
              (Dir.mk fs' (processSubfolders cfg
                (fun sub => sort_files_by_extensions cfg a true sub) subs').1).files
              (Dir.mk fs' (processSubfolders cfg
                (fun sub => sort_files_by_extensions cfg a true sub) subs').1).files
              (Dir.mk fs' (processSubfolders cfg
                (fun sub => sort_files_by_extensions cfg a true sub) subs').1).subdirs =
              (fs', (processSubfolders cfg
                (fun sub => sort_files_by_extensions cfg a true sub) subs').1,
               none) := processFiles_noop hbadall
          rw [sort_succ_ok_rec H, hstab]

theorem moveInto_id {subs : List (String × Dir)} {cat name : String} {s : Dir}
    (hfind : findDir subs cat = some s) (h : s.addFile name = s) :
    moveInto subs cat name = subs := by
  induction subs with
  | nil => rfl
  | cons p rest ih =>
    obtain ⟨m, d0⟩ := p
    by_cases hm : m = cat
    · subst hm
      simp only [findDir, if_pos rfl] at hfind
      obtain rfl : d0 = s := Option.some.inj hfind
      simp only [moveInto, if_pos rfl, h, if_true]
    · simp only [findDir, if_neg hm] at hfind
      simp only [moveInto, if_neg hm, ih hfind]

theorem processSubfolders_all_skip {cfg : Config} {f : Dir → Dir × Option Err} :
    ∀ {subs : List (String × Dir)},
      (∀ p ∈ subs, p.1 ∈ SUBFOLDER_NAMES cfg ∨ p.1 = cfg.logsName) →
      processSubfolders cfg f subs = (subs, none) := by
  intro subs
  induction subs with
  | nil => intro _; rfl
  | cons p rest ih =>
    intro hall
    obtain ⟨m, sub⟩ := p
    rw [processSubfolders_cons_skip (hall (m, sub) (List.mem_cons_self _ _)),
      ih fun q hq => hall q (List.mem_cons_of_mem _ hq)]

theorem lookup_all_ne {m : List (String × String)} {e v : String}
    (hall : m.all (fun p => !(p.1 = "") && !(p.2 = "")) = true)
    (h : lookupMap m e = some v) : e ≠ "" ∧ v ≠ "" := by
  induction m with
  | nil => cases h
  | cons p rest ih =>
    obtain ⟨k, w⟩ := p
    simp only [List.all_cons, Bool.and_eq_true, Bool.not_eq_true',
      decide_eq_false_iff_not] at hall
    by_cases hk : k = e
    · subst hk
      simp only [lookupMap, if_pos rfl] at h
      obtain rfl : w = v := Option.some.inj h
      exact ⟨hall.1.1, hall.1.2⟩
    · simp only [lookupMap, if_neg hk] at h
      exact ih hall.2 h

theorem afterLastDot_none {l : List Char} (h : '.' ∉ l) :
    afterLastDot l = none := by
  induction l with
  | nil => rfl
  | cons c cs ih =>
    have hc : c ≠ '.' := fun he => h (he ▸ List.mem_cons_self _ _)
    have hcs : '.' ∉ cs := fun hm => h (List.mem_cons_of_mem _ hm)
    simp only [afterLastDot, ih hcs, if_neg hc]

theorem afterLastDot_append {s t : List Char} (h : '.' ∉ t) :
    afterLastDot (s ++ '.' :: t) = some t := by
  induction s with
  | nil =>
    simp only [List.nil_append, afterLastDot, afterLastDot_none h, if_pos rfl,
      if_true]
  | cons c cs ih =>
    simp only [List.cons_append, afterLastDot, List.append_eq, ih]

theorem char_contains_false {l : List Char} (h : '.' ∉ l) :
    l.contains '.' = false := by
  cases hc : l.contains '.'
  · rfl
  · exact absurd (List.elem_iff.mp hc) h

theorem classify_no_dot {l : List Char} (h : '.' ∉ l) :
    classify (String.mk l) = "" := by
  show (if l.contains '.' = true then String.mk (rsplitLast l) else "") = ""
  rw [char_contains_false h]
  rfl

theorem classify_last_dot {s t : List Char} (h : '.' ∉ t) :
    classify (String.mk (s ++ '.' :: t)) = String.mk t := by
  have hc : (s ++ '.' :: t).contains '.' = true :=
    List.elem_iff.mpr (List.mem_append.mpr (Or.inr (List.mem_cons_self _ _)))
  show (if (s ++ '.' :: t).contains '.' = true
      then String.mk (rsplitLast (s ++ '.' :: t)) else "") = String.mk t
  rw [hc, if_pos rfl]
  unfold rsplitLast
  rw [afterLastDot_append h]

/-- With any fuel — even exhausted fuel — a file with empty or unknown
extension stays at its place at the top of the directory. -/
theorem sort_bad_file_left {cfg : Config} {fuel : Nat} {recursive : Bool}
    {d d' : Dir} {e : Option Err} {name : String}
    (hname : name ∈ d.files)
    (hbad : classify name = "" ∨ lookupMap cfg.EXTENSIONS (classify name) = none)
    (hrun : sort_files_by_extensions cfg fuel recursive d = (d', e)) :
    name ∈ d'.files := by
  cases fuel with
  | zero =>
    rw [sort_zero] at hrun
    injection hrun with h1 h2
    subst h1
    exact hname
  | succ a =>
    rcases hp : processFiles cfg d.files d.files d.subdirs with ⟨fs', subs', e0⟩
    have hstay : name ∈ fs' := processFiles_bad_stays hname hbad hp
    cases e0 with
    | some e0 =>
      rw [sort_succ_err hp] at hrun
      injection hrun with h1 h2
      subst h1
      exact hstay
    | none =>
      cases recursive with
      | false =>
        rw [sort_succ_ok_norec hp] at hrun
        injection hrun with h1 h2
        subst h1
        exact hstay
      | true =>
        rw [sort_succ_ok_rec hp] at hrun
        injection hrun with h1 h2
        subst h1
        exact hstay

/-- Provenance through a full sort: a file found directly inside a
top-level subdirectory either was already at that path, or was moved
there by the top-level file loop because its extension maps to that
subdirectory's name. -/
theorem sort_subdir_files_from {cfg : Config} {fuel : Nat} {recursive : Bool}
    {d d' : Dir} {e : Option Err} {c x : String} {s' : Dir}
    (hrun : sort_files_by_extensions cfg fuel recursive d = (d', e))
    (hfind : findDir d'.subdirs c = some s')
    (hx : x ∈ s'.files) :
    (∃ s, findDir d.subdirs c = some s ∧ x ∈ s.files) ∨
      (classify x ≠ "" ∧ lookupMap cfg.EXTENSIONS (classify x) = some c) := by
  cases fuel with
  | zero =>
    rw [sort_zero] at hrun
    injection hrun with h1 h2
    subst h1
    exact Or.inl ⟨s', hfind, hx⟩
  | succ a =>
    rcases hp : processFiles cfg d.files d.files d.subdirs with ⟨fs', subs', e0⟩
    cases e0 with
    | some e0 =>
      rw [sort_succ_err hp] at hrun
      injection hrun with h1 h2
      subst h1
      exact processFiles_entry_from hp hfind hx
    | none =>
      cases recursive with
      | false =>
        rw [sort_succ_ok_norec hp] at hrun
        injection hrun with h1 h2
        subst h1
        exact processFiles_entry_from hp hfind hx
      | true =>
        rw [sort_succ_ok_rec hp] at hrun
        injection hrun with h1 h2
        subst h1
        obtain ⟨s2, hs2, hsub2⟩ :=
          processSubfolders_files_from (fun d0 y hy => sort_files_subset a hy)
            hfind
        exact processFiles_entry_from hp hs2 (hsub2 x hx)

/-- A file whose extension is a key, when the whole pass succeeds, ends
up inside the category folder and leaves the top level. -/
theorem sort_moves_file {cfg : Config} {fuel : Nat} {recursive : Bool}
    {d d' : Dir} {name cat : String}
    (hwf : d.wf = true)
    (hname : name ∈ d.files)
    (hext : classify name ≠ "")
    (hcat : lookupMap cfg.EXTENSIONS (classify name) = some cat)
    (hrun : sort_files_by_extensions cfg fuel recursive d = (d', none)) :
    ∃ s', findDir d'.subdirs cat = some s' ∧ name ∈ s'.files ∧
      name ∉ d'.files := by
  cases fuel with
  | zero =>
    rw [sort_zero] at hrun
    injection hrun with h1 h2
    cases h2
  | succ a =>
    rcases hp : processFiles cfg d.files d.files d.subdirs with ⟨fs', subs', e0⟩
    have hdwf : Dir.wf (.mk d.files d.subdirs) = true := by
      rw [dir_eta]
      exact hwf
    have hnodup : d.files.Nodup := (wf_mk_iff.mp hdwf).1
    cases e0 with
    | some e0 =>
      rw [sort_succ_err hp] at hrun
      injection hrun with h1 h2
      cases h2
    | none =>
      have hnotin : name ∉ fs' := by
        intro hin
        rcases processFiles_success_bad hnodup hp name hin with hns | hb | hb
        · exact hns hname
        · exact hext hb
        · rw [hb] at hcat
          cases hcat
      obtain ⟨s'', hfind'', hmem''⟩ :
          ∃ s'', findDir subs' cat = some s'' ∧ name ∈ s''.files := by
        rcases processFiles_moved_or_stays hname hext hcat hp with hin | hplaced
        · exact absurd hin hnotin
        · exact hplaced
      cases recursive with
      | false =>
        rw [sort_succ_ok_norec hp] at hrun
        injection hrun with h1 h2
        subst h1
        exact ⟨s'', hfind'', hmem'', hnotin⟩
      | true =>
        rw [sort_succ_ok_rec hp] at hrun
        injection hrun with h1 h2
        subst h1
        have hskip : cat ∈ SUBFOLDER_NAMES cfg ∨ cat = cfg.logsName :=
          Or.inl (lookup_mem_values hcat)
        refine ⟨s'', ?_, hmem'', hnotin⟩
        rw [subdirs_mk, processSubfolders_skip_findDir hskip]
        exact hfind''

/-- A top-level file with a known extension that is gone from the top
level after the sort — error or not — sits inside its category folder. -/
theorem sort_moved_placed {cfg : Config} {fuel : Nat} {recursive : Bool}
    {d d' : Dir} {e : Option Err} {name cat : String}
    (hname : name ∈ d.files)
    (hext : classify name ≠ "")
    (hcat : lookupMap cfg.EXTENSIONS (classify name) = some cat)
    (hrun : sort_files_by_extensions cfg fuel recursive d = (d', e))
    (hgone : name ∉ d'.files) :
    ∃ s', findDir d'.subdirs cat = some s' ∧ name ∈ s'.files := by
  cases fuel with
  | zero =>
    rw [sort_zero] at hrun
    injection hrun with h1 h2
    subst h1
    exact absurd hname hgone
  | succ a =>
    rcases hp : processFiles cfg d.files d.files d.subdirs with ⟨fs', subs', e0⟩
    have hplaced : ∃ s'', findDir subs' cat = some s'' ∧ name ∈ s''.files := by
      rcases processFiles_moved_or_stays hname hext hcat hp with hin | hplaced
      · exfalso
        apply hgone
        cases e0 with
        | some e0 =>
          rw [sort_succ_err hp] at hrun
          injection hrun with h1 h2
          subst h1
          exact hin
        | none =>
          cases recursive with
          | false =>
            rw [sort_succ_ok_norec hp] at hrun
            injection hrun with h1 h2
            subst h1
            exact hin
          | true =>
            rw [sort_succ_ok_rec hp] at hrun
            injection hrun with h1 h2
            subst h1
            exact hin
      · exact hplaced
    obtain ⟨s'', hfind'', hmem''⟩ := hplaced
    have hskip : cat ∈ SUBFOLDER_NAMES cfg ∨ cat = cfg.logsName :=
      Or.inl (lookup_mem_values hcat)
    cases e0 with
    | some e0 =>
      rw [sort_succ_err hp] at hrun
      injection hrun with h1 h2
      subst h1
      exact ⟨s'', hfind'', hmem''⟩
    | none =>
      cases recursive with
      | false =>
        rw [sort_succ_ok_norec hp] at hrun
        injection hrun with h1 h2
        subst h1
        exact ⟨s'', hfind'', hmem''⟩
      | true =>
        rw [sort_succ_ok_rec hp] at hrun
        injection hrun with h1 h2
        subst h1
        refine ⟨s'', ?_, hmem''⟩
        rw [subdirs_mk, processSubfolders_skip_findDir hskip]
        exact hfind''

/-- On an already-sorted tree — no top-level files, every subdirectory
bearing a reserved name — the recursive sort returns at once without
changing anything and without error. -/
theorem sort_skip_all {cfg : Config} {fuel : Nat} {d : Dir}
    (hfiles : d.files = [])
    (hsubs : ∀ p ∈ d.subdirs, p.1 ∈ SUBFOLDER_NAMES cfg ∨ p.1 = cfg.logsName)
    (hfuel : 1 ≤ fuel) :
    sort_files_by_extensions cfg fuel true d = (d, none) := by
  cases fuel with
  | zero => omega
  | succ a =>
    have H : processFiles cfg d.files d.files d.subdirs =
        (d.files, d.subdirs, none) :=
      processFiles_noop (by rw [hfiles]; intro x hx; cases hx)
    rw [sort_succ_ok_rec H, processSubfolders_all_skip hsubs, dir_eta]

/-- Through a successful recursive sort, a plain subdirectory is sorted
in place: a known-extension file inside it moves into the category
folder created locally inside that subdirectory. -/
theorem sort_rec_subdir {cfg : Config} {fuel : Nat} {d d' : Dir}
    {n fileName catName : String} {s : Dir}
    (hwf : d.wf = true)
    (hsub : findDir d.subdirs n = some s)
    (hplain : n ∉ SUBFOLDER_NAMES cfg)
    (hlogs : n ≠ cfg.logsName)
    (hf : fileName ∈ s.files)
    (hext : classify fileName ≠ "")
    (hcat : lookupMap cfg.EXTENSIONS (classify fileName) = some catName)
    (hrun : sort_files_by_extensions cfg fuel true d = (d', none)) :
    ∃ s', findDir d'.subdirs n = some s' ∧ fileName ∉ s'.files ∧
      ∃ catd, findDir s'.subdirs catName = some catd ∧ fileName ∈ catd.files := by
  cases fuel with
  | zero =>
    rw [sort_zero] at hrun
    injection hrun with h1 h2
    cases h2
  | succ a =>
    rcases hp : processFiles cfg d.files d.files d.subdirs with ⟨fs', subs', e0⟩
    have hdwf : Dir.wf (.mk d.files d.subdirs) = true := by
      rw [dir_eta]
      exact hwf
    cases e0 with
    | some e0 =>
      rw [sort_succ_err hp] at hrun
      injection hrun with h1 h2
      cases h2
    | none =>
      have h1 : findDir subs' n = some s := by
        rw [processFiles_plain_findDir hp hplain]
        exact hsub
      rw [sort_succ_ok_rec hp] at hrun
      injection hrun with hd1 hd2
      subst hd1
      have hns : ¬(n ∈ SUBFOLDER_NAMES cfg ∨ n = cfg.logsName) := by
        rintro (h | h)
        · exact hplain h
        · exact hlogs h
      have hP : processSubfolders cfg
          (fun sub => sort_files_by_extensions cfg a true sub) subs' =
          ((processSubfolders cfg
            (fun sub => sort_files_by_extensions cfg a true sub) subs').1,
           none) := by rw [← hd2]
      obtain ⟨s', hfs', hfind'⟩ := processSubfolders_ok_plain hns hP h1
      have hwf' : Dir.wf (.mk fs' subs') = true := processFiles_wf hdwf hp
      have hswf : s.wf = true :=
        wfList_mem (wf_mk_iff.mp hwf').2.2.2 (findDir_mem h1)
      obtain ⟨catd, hcatd, hfcatd, hfnot⟩ :=
        sort_moves_file hswf hf hext hcat hfs'
      exact ⟨s', hfind', hfnot, catd, hcatd, hfcatd⟩

/-- The file loop on a snapshot whose only known-extension file already
has its category folder present with a file of the same name inside:
the move overwrites silently and the state is otherwise unchanged. -/
theorem processFiles_overwrite {cfg : Config} :
    ∀ {snap fs : List String} {subs : List (String × Dir)}
      {name cat : String} {s : Dir},
      snap.Nodup →
      (∀ x ∈ snap, x ≠ name →
        classify x = "" ∨ lookupMap cfg.EXTENSIONS (classify x) = none) →
      classify name ≠ "" →
      lookupMap cfg.EXTENSIONS (classify name) = some cat →
      findDir subs cat = some s →
      name ∈ s.files →
      name ∉ dirNames s.subdirs →
      name ∈ fs →
      name ∈ snap →
      processFiles cfg snap fs subs = (fs.erase name, subs, none) := by
  intro snap
  induction snap with
  | nil =>
    intro fs subs name cat s _ _ _ _ _ _ _ _ hmem
    cases hmem
  | cons x rest ih =>
    intro fs subs name cat s hnd hbad hext hcat hfind hsf hsd hfs hmem
    by_cases hx : x = name
    · subst hx
      have hcreate : create_subfolder fs subs cat = subs := by
        unfold create_subfolder
        rw [if_pos (Or.inr (findDir_isSome_iff.mp (by rw [hfind]; rfl)))]
      rw [processFiles_cons_good hext hcat, hcreate, hfind]
      simp only [if_neg hsd, if_pos hfs]
      rw [moveInto_id hfind (addFile_of_mem hsf)]
      have hnotin : x ∉ rest := (List.nodup_cons.mp hnd).1
      exact processFiles_noop fun y hy =>
        hbad y (List.mem_cons_of_mem _ hy) fun he => hnotin (he ▸ hy)
    · have hbadx : classify x = "" ∨ lookupMap cfg.EXTENSIONS (classify x) = none :=
        hbad x (List.mem_cons_self _ _) hx
      rw [processFiles_cons_bad hbadx]
      have hmem' : name ∈ rest := by
        rcases List.mem_cons.mp hmem with h1 | h1
        · exact absurd h1.symm hx
        · exact h1
      exact ih (List.nodup_cons.mp hnd).2
        (fun y hy => hbad y (List.mem_cons_of_mem _ hy)) hext hcat hfind hsf
        hsd hfs hmem'

/-- With `recursive = False` the subdirectory loop never runs, so a
subdirectory whose name is not a category name is untouched entirely. -/
theorem sort_norec_plain {cfg : Config} {fuel : Nat} {d d' : Dir}
    {e : Option Err} {n : String} {s : Dir}
    (hrun : sort_files_by_extensions cfg fuel false d = (d', e))
    (hplain : n ∉ SUBFOLDER_NAMES cfg)
    (hsub : findDir d.subdirs n = some s) :
    findDir d'.subdirs n = some s := by
  cases fuel with
  | zero =>
    rw [sort_zero] at hrun
    injection hrun with h1 h2
    subst h1
    exact hsub
  | succ a =>
    rcases hp : processFiles cfg d.files d.files d.subdirs with ⟨fs', subs', e0⟩
    cases e0 with
    | some e0 =>
      rw [sort_succ_err hp] at hrun
      injection hrun with h1 h2
      subst h1
      rw [subdirs_mk, processFiles_plain_findDir hp hplain]
      exact hsub
    | none =>
      rw [sort_succ_ok_norec hp] at hrun
      injection hrun with h1 h2
      subst h1
      rw [subdirs_mk, processFiles_plain_findDir hp hplain]
      exact hsub

/-! ### The claims -/

/-- C1, as stated, is false on the code: when a plain file bears the
name of the needed category folder, `_create_subfolder` skips `mkdir`
(an entry named `images` exists) and `Path.rename` then raises
`NotADirectoryError`; the known-extension file `a.jpg` is still at its
original location after the call and `images` exists only as a file,
not as a directory containing `a.jpg`. -/
theorem C1_counterexample :
    Config.wf ⟨[("jpg", "images")], "logs"⟩ = true ∧
    Dir.wf (Dir.mk ["images", "a.jpg"] []) = true ∧
    "a.jpg" ∈ (Dir.mk ["images", "a.jpg"] []).files ∧
    lookupMap [("jpg", "images")] (classify "a.jpg") = some "images" ∧
    "a.jpg" ∈ (sortDirectory ⟨[("jpg", "images")], "logs"⟩ true
      (Dir.mk ["images", "a.jpg"] [])).1.files ∧
    (findDir (sortDirectory ⟨[("jpg", "images")], "logs"⟩ true
      (Dir.mk ["images", "a.jpg"] [])).1.subdirs "images").isNone = true := by
  decide

/-- C1 (amended): for every file directly in a well-formed directory
whose extension is a key of a well-formed `ExtensionMap`, provided the
call to `sortDirectory` completes without a file-system error, the file
exists at `dir/category/filename` and no longer at its original
location. -/
theorem C1_known_extension_sorted (cfg : Config) (recursive : Bool)
    (d d' : Dir) (name cat : String)
    (hwfc : Config.wf cfg = true)
    (hwf : Dir.wf d = true)
    (hname : name ∈ d.files)
    (hcat : lookupMap cfg.EXTENSIONS (classify name) = some cat)
    (hrun : sortDirectory cfg recursive d = (d', none)) :
    ∃ s', findDir d'.subdirs cat = some s' ∧ name ∈ s'.files ∧
      name ∉ d'.files :=
  sort_moves_file hwf hname (lookup_all_ne hwfc hcat).1 hcat hrun

theorem C1_witness :
    ∃ s', findDir (Dir.mk ["c"] [("images", Dir.mk ["a.jpg"] []),
        ("docs", Dir.mk ["b.txt"] [])]).subdirs "images" = some s' ∧
      "a.jpg" ∈ s'.files ∧
      "a.jpg" ∉ (Dir.mk ["c"] [("images", Dir.mk ["a.jpg"] []),
        ("docs", Dir.mk ["b.txt"] [])]).files :=
  C1_known_extension_sorted
    ⟨[("jpg", "images"), ("txt", "docs")], "logs"⟩ true
    (Dir.mk ["a.jpg", "b.txt", "c"] [])
    (Dir.mk ["c"] [("images", Dir.mk ["a.jpg"] []),
      ("docs", Dir.mk ["b.txt"] [])])
    "a.jpg" "images" (by decide) (by decide) (by decide) (by decide) rfl

/-- C2: a file whose extension is empty or absent from `ExtensionMap`
keeps its position: it is still at the top of the directory after one
pass, and it appears inside a top-level subdirectory only where a file
of that name already was before the pass. -/
theorem C2_unknown_extension_unmoved (cfg : Config) (recursive : Bool)
    (d : Dir) (name : String)
    (hname : name ∈ d.files)
    (hbad : classify name = "" ∨
      lookupMap cfg.EXTENSIONS (classify name) = none) :
    name ∈ (sortDirectory cfg recursive d).1.files ∧
    ∀ c s', findDir (sortDirectory cfg recursive d).1.subdirs c = some s' →
      name ∈ s'.files →
      ∃ s, findDir d.subdirs c = some s ∧ name ∈ s.files := by
  constructor
  · exact sort_bad_file_left hname hbad rfl
  · intro c s' hfind hx
    rcases sort_subdir_files_from rfl hfind hx with h | ⟨hne, hl⟩
    · exact h
    · rcases hbad with hb | hb
      · exact absurd hb hne
      · rw [hb] at hl
        cases hl

theorem C2_witness :
    "c" ∈ (sortDirectory ⟨[("jpg", "images")], "logs"⟩ true
      (Dir.mk ["c"] [("keep", Dir.mk ["c"] [])])).1.files ∧
    (∃ s, findDir (Dir.mk ["c"] [("keep", Dir.mk ["c"] [])]).subdirs "keep" =
      some s ∧ "c" ∈ s.files) :=
  ⟨(C2_unknown_extension_unmoved ⟨[("jpg", "images")], "logs"⟩ true
      (Dir.mk ["c"] [("keep", Dir.mk ["c"] [])]) "c"
      (by decide) (Or.inl (by decide))).1,
   (C2_unknown_extension_unmoved ⟨[("jpg", "images")], "logs"⟩ true
      (Dir.mk ["c"] [("keep", Dir.mk ["c"] [])]) "c"
      (by decide) (Or.inl (by decide))).2 "keep" (Dir.mk ["c"] [])
      rfl (by decide)⟩

/-- C3: `sortDirectory` is idempotent: re-running the sort on the tree
produced by a completed run changes nothing — no file is moved a second
time and re-encountering the already-existing category folders raises no
error. -/
theorem C3_idempotent (cfg : Config) (recursive : Bool) (d d' : Dir)
    (hwf : Dir.wf d = true)
    (hrun : sortDirectory cfg recursive d = (d', none)) :
    sortDirectory cfg recursive d' = (d', none) :=
  sort_stable d.depth hwf (le_refl _) (le_refl _) hrun

theorem C3_witness :
    sortDirectory ⟨[("jpg", "images"), ("txt", "docs")], "logs"⟩ true
      (Dir.mk ["c"] [("images", Dir.mk ["a.jpg"] []),
        ("docs", Dir.mk ["b.txt"] [])]) =
      (Dir.mk ["c"] [("images", Dir.mk ["a.jpg"] []),
        ("docs", Dir.mk ["b.txt"] [])], none) :=
  C3_idempotent ⟨[("jpg", "images"), ("txt", "docs")], "logs"⟩ true
    (Dir.mk ["a.jpg", "b.txt", "c"] [])
    (Dir.mk ["c"] [("images", Dir.mk ["a.jpg"] []),
      ("docs", Dir.mk ["b.txt"] [])])
    (by decide) rfl

/-- C4: the recursive sort terminates within the tree-depth bound on
every finite tree (the fuel marker is never reached), and on an
already-sorted tree — no top-level files, every subdirectory named
after a category or the log directory — it returns at once without
descending into any subdirectory. -/
theorem C4_recursion_guard (cfg : Config) (recursive : Bool) (d : Dir) :
    (sortDirectory cfg recursive d).2 ≠ some Err.depthExceeded ∧
    (d.files = [] →
      (∀ p ∈ d.subdirs, p.1 ∈ SUBFOLDER_NAMES cfg ∨ p.1 = cfg.logsName) →
      sortDirectory cfg true d = (d, none)) :=
  ⟨sort_no_depth_err d.depth (le_refl _),
   fun hf hs => sort_skip_all hf hs (depth_pos d)⟩

theorem C4_witness :
    (sortDirectory ⟨[("jpg", "images")], "logs"⟩ true
      (Dir.mk ["a.jpg"] [])).2 ≠ some Err.depthExceeded ∧
    sortDirectory ⟨[("jpg", "images")], "logs"⟩ true
      (Dir.mk [] [("images", Dir.mk ["x.jpg"] []), ("logs", Dir.mk [] [])]) =
      (Dir.mk [] [("images", Dir.mk ["x.jpg"] []), ("logs", Dir.mk [] [])],
       none) :=
  ⟨(C4_recursion_guard ⟨[("jpg", "images")], "logs"⟩ true
      (Dir.mk ["a.jpg"] [])).1,
   (C4_recursion_guard ⟨[("jpg", "images")], "logs"⟩ true
      (Dir.mk [] [("images", Dir.mk ["x.jpg"] []),
        ("logs", Dir.mk [] [])])).2 rfl (by decide)⟩

/-- C5: in recursive mode a plain (non-category, non-reserved)
subdirectory is sorted in place — its known-extension files move into a
category folder created locally inside that subdirectory, never to the
root; with `recursive = False` such a subdirectory is left entirely
unchanged. -/
theorem C5_subdir_local_sorting (cfg : Config) (d : Dir)
    (n fileName catName : String) (s : Dir)
    (hwfc : Config.wf cfg = true)
    (hwf : Dir.wf d = true)
    (hsub : findDir d.subdirs n = some s)
    (hplain : n ∉ SUBFOLDER_NAMES cfg)
    (hlogs : n ≠ cfg.logsName)
    (hf : fileName ∈ s.files)
    (hcat : lookupMap cfg.EXTENSIONS (classify fileName) = some catName) :
    (∀ d', sortDirectory cfg true d = (d', none) →
      ∃ s', findDir d'.subdirs n = some s' ∧ fileName ∉ s'.files ∧
        ∃ catd, findDir s'.subdirs catName = some catd ∧
          fileName ∈ catd.files) ∧
    (∀ d' e, sortDirectory cfg false d = (d', e) →
      findDir d'.subdirs n = some s) := by
  constructor
  · intro d' hrun
    exact sort_rec_subdir hwf hsub hplain hlogs hf
      (lookup_all_ne hwfc hcat).1 hcat hrun
  · intro d' e hrun
    exact sort_norec_plain hrun hplain hsub

theorem C5_witness :
    (∃ s', findDir (Dir.mk []
        [("sub", Dir.mk [] [("images", Dir.mk ["d.jpg"] [])])]).subdirs
        "sub" = some s' ∧
      "d.jpg" ∉ s'.files ∧
      ∃ catd, findDir s'.subdirs "images" = some catd ∧
        "d.jpg" ∈ catd.files) ∧
    findDir (Dir.mk [] [("sub", Dir.mk ["d.jpg"] [])]).subdirs "sub" =
      some (Dir.mk ["d.jpg"] []) :=
  ⟨(C5_subdir_local_sorting ⟨[("jpg", "images")], "logs"⟩
      (Dir.mk [] [("sub", Dir.mk ["d.jpg"] [])]) "sub" "d.jpg" "images"
      (Dir.mk ["d.jpg"] []) (by decide) (by decide) rfl (by decide)
      (by decide) (by decide) (by decide)).1
      (Dir.mk [] [("sub", Dir.mk [] [("images", Dir.mk ["d.jpg"] [])])]) rfl,
   (C5_subdir_local_sorting ⟨[("jpg", "images")], "logs"⟩
      (Dir.mk [] [("sub", Dir.mk ["d.jpg"] [])]) "sub" "d.jpg" "images"
      (Dir.mk ["d.jpg"] []) (by decide) (by decide) rfl (by decide)
      (by decide) (by decide) (by decide)).2
      (Dir.mk [] [("sub", Dir.mk ["d.jpg"] [])]) none rfl⟩

/-- C7: `classify` returns the substring after the last dot of the
filename — the whole suffix after the final `'.'`, and the empty string
when no dot occurs — and a file for which `classify` returns the empty
string is never moved by `sortDirectory`. -/
theorem C7_classify_spec :
    (∀ l : List Char, '.' ∉ l → classify (String.mk l) = "") ∧
    (∀ s t : List Char, '.' ∉ t →
      classify (String.mk (s ++ '.' :: t)) = String.mk t) ∧
    (∀ (cfg : Config) (recursive : Bool) (d : Dir) (name : String),
      name ∈ d.files → classify name = "" →
      name ∈ (sortDirectory cfg recursive d).1.files) :=
  ⟨fun l h => classify_no_dot h,
   fun s t h => classify_last_dot h,
   fun cfg recursive d name hname hemp =>
     sort_bad_file_left hname (Or.inl hemp) rfl⟩

theorem C7_witness :
    classify (String.mk ['c']) = "" ∧
    classify (String.mk (['a'] ++ '.' :: ['j', 'p', 'g'])) =
      String.mk ['j', 'p', 'g'] ∧
    "c" ∈ (sortDirectory ⟨[("jpg", "images")], "logs"⟩ true
      (Dir.mk ["c"] [])).1.files :=
  ⟨C7_classify_spec.1 ['c'] (by decide),
   C7_classify_spec.2.1 ['a'] ['j', 'p', 'g'] (by decide),
   C7_classify_spec.2.2 ⟨[("jpg", "images")], "logs"⟩ true
     (Dir.mk ["c"] []) "c" (by decide) (by decide)⟩

/-- C8: when the configured root directory does not exist, the run
fails with `PathNotFound` before any file is moved or any folder is
created — the file-system state is returned unchanged. -/
theorem C8_missing_root_aborts (cfg : Config) (recursive : Bool) :
    sortRoot cfg recursive none = (none, some Err.pathNotFound) := rfl

/-- C9, as stated, is false on the code: a failure while moving one
file aborts the entire walk.  Here moving `a.jpg` raises
`NotADirectoryError` (a plain file `images` blocks the category
folder); `b.txt`, later in the listing and with a known extension, is
left unprocessed at the top level and its category folder `docs` is
never created — no summary, no continuation. -/
theorem C9_counterexample :
    (sortDirectory ⟨[("jpg", "images"), ("txt", "docs")], "logs"⟩ true
      (Dir.mk ["images", "a.jpg", "b.txt"] [])).2 = some Err.notADirectory ∧
    lookupMap [("jpg", "images"), ("txt", "docs")] (classify "b.txt") =
      some "docs" ∧
    "b.txt" ∈ (sortDirectory ⟨[("jpg", "images"), ("txt", "docs")], "logs"⟩
      true (Dir.mk ["images", "a.jpg", "b.txt"] [])).1.files ∧
    (findDir (sortDirectory ⟨[("jpg", "images"), ("txt", "docs")], "logs"⟩
      true (Dir.mk ["images", "a.jpg", "b.txt"] [])).1.subdirs
      "docs").isNone = true := by
  decide

/-- C9 (amended): a file-system failure while moving one file aborts
the walk (the exception propagates, later files are left unprocessed,
no summary is produced), but files already moved before the failure
remain correctly placed: any known-extension file gone from the top
level sits inside its category folder, error or not. -/
theorem C9_abort_preserves_placed (cfg : Config) (recursive : Bool)
    (d d' : Dir) (e : Option Err) (name cat : String)
    (hwfc : Config.wf cfg = true)
    (hname : name ∈ d.files)
    (hcat : lookupMap cfg.EXTENSIONS (classify name) = some cat)
    (hrun : sortDirectory cfg recursive d = (d', e))
    (hgone : name ∉ d'.files) :
    ∃ s', findDir d'.subdirs cat = some s' ∧ name ∈ s'.files :=
  sort_moved_placed hname (lookup_all_ne hwfc hcat).1 hcat hrun hgone

theorem C9_witness :
    ∃ s', findDir (Dir.mk ["c"] [("images", Dir.mk ["a.jpg"] []),
        ("docs", Dir.mk ["b.txt"] [])]).subdirs "images" = some s' ∧
      "a.jpg" ∈ s'.files :=
  C9_abort_preserves_placed
    ⟨[("jpg", "images"), ("txt", "docs")], "logs"⟩ true
    (Dir.mk ["a.jpg", "b.txt", "c"] [])
    (Dir.mk ["c"] [("images", Dir.mk ["a.jpg"] []),
      ("docs", Dir.mk ["b.txt"] [])])
    none "a.jpg" "images" (by decide) (by decide) (by decide) rfl (by decide)

/-- C10: when a file of the same base name already exists at the
destination `dir/category/filename`, the move silently replaces it
(`Path.rename` semantics): no error is raised, the run continues to
completion, and the category folder's contents are unchanged except
that the moved file has taken the place of the old one. -/
theorem C10_overwrite_semantics (cfg : Config) (recursive : Bool) (d : Dir)
    (name cat : String) (s : Dir)
    (hwfc : Config.wf cfg = true)
    (hwf : Dir.wf d = true)
    (hname : name ∈ d.files)
    (hcat : lookupMap cfg.EXTENSIONS (classify name) = some cat)
    (hdest : findDir d.subdirs cat = some s)
    (hdfile : name ∈ s.files)
    (hothers : ∀ x ∈ d.files, x ≠ name →
      classify x = "" ∨ lookupMap cfg.EXTENSIONS (classify x) = none)
    (hreserved : ∀ p ∈ d.subdirs,
      p.1 ∈ SUBFOLDER_NAMES cfg ∨ p.1 = cfg.logsName) :
    sortDirectory cfg recursive d =
      (Dir.mk (d.files.erase name) d.subdirs, none) := by
  have hext : classify name ≠ "" := (lookup_all_ne hwfc hcat).1
  have hdwf : Dir.wf (.mk d.files d.subdirs) = true := by
    rw [dir_eta]
    exact hwf
  rcases wf_mk_iff.mp hdwf with ⟨w1, w2, w3, w4⟩
  have hswf : s.wf = true := wfList_mem w4 (findDir_mem hdest)
  have hsd : name ∉ dirNames s.subdirs := by
    intro hmem
    obtain ⟨sfs, ssubs⟩ := s
    rcases wf_mk_iff.mp hswf with ⟨_, _, s3, _⟩
    exact s3 name hmem hdfile
  have hp : processFiles cfg d.files d.files d.subdirs =
      (d.files.erase name, d.subdirs, none) :=
    processFiles_overwrite w1 hothers hext hcat hdest hdfile hsd hname hname
  show sort_files_by_extensions cfg d.depth recursive d = _
  have hfuel := depth_pos d
  cases hdd : d.depth with
  | zero => omega
  | succ a =>
    cases recursive with
    | false => rw [sort_succ_ok_norec hp]
    | true => rw [sort_succ_ok_rec hp, processSubfolders_all_skip hreserved]

theorem C10_witness :
    sortDirectory ⟨[("jpg", "images")], "logs"⟩ true
      (Dir.mk ["a.jpg"] [("images", Dir.mk ["a.jpg"] [])]) =
      (Dir.mk (["a.jpg"].erase "a.jpg") [("images", Dir.mk ["a.jpg"] [])],
       none) :=
  C10_overwrite_semantics ⟨[("jpg", "images")], "logs"⟩ true
    (Dir.mk ["a.jpg"] [("images", Dir.mk ["a.jpg"] [])]) "a.jpg" "images"
    (Dir.mk ["a.jpg"] []) (by decide) (by decide) (by decide) (by decide)
    rfl (by decide) (by decide) (by decide)
